import Mathlib

/-!
# Verification of the agent retry loop (`src/agent.py`)

This file shallowly embeds the parts of `src/agent.py` that the claims
C1–C10 are about:

* a model of Python's `json.loads` (standard JSON grammar, plus the
  `NaN` / `Infinity` / `-Infinity` constants that Python's decoder accepts),
  operating on `List Char`;
* the decode-with-fallback logic of `llm_propose_patches` (strict decode,
  then the substring between the first `{` and the last `}`);
* the internal 3-try retry loop of `llm_propose_patches`;
* `apply_patches` over a flat file-system model (path ↦ contents);
* `repo_context` / `file_tree_snapshot` / `read_existing_files`;
* the `main` attempt loop with its `MAX_ATTEMPTS = 3` budget, exit codes,
  and feedback threading of the pytest report.

External effects (the Groq API, the pytest subprocess) are parameterized as
arbitrary per-attempt behaviors, so theorems quantify over every oracle /
verifier behavior.
-/

namespace Agent

/-- JSON values as produced by Python's `json.loads`.  Numeric literals are
kept as their source lexeme (the claims never inspect numeric values, so no
int/float semantics is needed).  Objects are insertion-ordered key/value
lists with duplicate keys collapsed (later value wins, position of the first
occurrence kept), exactly as Python `dict` construction does. -/
inductive Json where
  | null
  | bool (b : Bool)
  | num (lexeme : String)
  | str (s : String)
  | arr (elems : List Json)
  | obj (fields : List (String × Json))

/-- The JSON whitespace characters (Python `json` skips exactly these). -/
def isJsonWs (c : Char) : Bool :=
  c == ' ' || c == '\t' || c == '\n' || c == '\r'

/-- Skip leading JSON whitespace. -/
def skipWs (s : List Char) : List Char := s.dropWhile isJsonWs

/-- Value of a hexadecimal digit, used for `\uXXXX` escapes. -/
def hexVal (c : Char) : Option Nat :=
  if '0' ≤ c ∧ c ≤ '9' then some (c.toNat - '0'.toNat)
  else if 'a' ≤ c ∧ c ≤ 'f' then some (c.toNat - 'a'.toNat + 10)
  else if 'A' ≤ c ∧ c ≤ 'F' then some (c.toNat - 'A'.toNat + 10)
  else none

/-- Translation of a single-character string escape. -/
def escChar (c : Char) : Option Char :=
  if c = '"' then some '"'
  else if c = '\\' then some '\\'
  else if c = '/' then some '/'
  else if c = 'b' then some (Char.ofNat 8)
  else if c = 'f' then some (Char.ofNat 12)
  else if c = 'n' then some '\n'
  else if c = 'r' then some '\r'
  else if c = 't' then some '\t'
  else none

/-- Scan a JSON string body (the input starts *after* the opening quote);
returns the decoded characters and the remaining input after the closing
quote.  Unescaped control characters are rejected (Python's strict mode);
surrogate pairs in `\u` escapes are not recombined (irrelevant to the
claims — `Char.ofNat` maps non-scalar values to NUL). -/
def parseStr : List Char → Option (List Char × List Char)
  | [] => none
  | '"' :: rest => some ([], rest)
  | '\\' :: 'u' :: h1 :: h2 :: h3 :: h4 :: rest =>
      match hexVal h1, hexVal h2, hexVal h3, hexVal h4 with
      | some a, some b, some c, some d =>
          (parseStr rest).map
            (fun p => (Char.ofNat (((a * 16 + b) * 16 + c) * 16 + d) :: p.1, p.2))
      | _, _, _, _ => none
  | '\\' :: e :: rest =>
      match escChar e with
      | some c => (parseStr rest).map (fun p => (c :: p.1, p.2))
      | none => none
  | c :: rest =>
      if c.toNat < 0x20 then none
      else (parseStr rest).map (fun p => (c :: p.1, p.2))

/-- Integer part of a JSON number: `0`, or a nonzero digit followed by a
maximal run of digits (the regex `(0|[1-9]\d*)` with maximal munch). -/
def parseIntPart : List Char → Option (List Char × List Char)
  | '0' :: rest => some (['0'], rest)
  | c :: rest =>
      if c.isDigit then
        some (c :: rest.takeWhile Char.isDigit, rest.dropWhile Char.isDigit)
      else none
  | [] => none

/-- Optional fractional part `(\.\d+)?`. -/
def parseFrac (s : List Char) : List Char × List Char :=
  match s with
  | '.' :: rest =>
      if (rest.takeWhile Char.isDigit).isEmpty then ([], s)
      else ('.' :: rest.takeWhile Char.isDigit, rest.dropWhile Char.isDigit)
  | _ => ([], s)

/-- Optional exponent part `([eE][-+]?\d+)?`. -/
def parseExp (s : List Char) : List Char × List Char :=
  match s with
  | e :: sg :: rest =>
      if e = 'e' ∨ e = 'E' then
        if sg = '+' ∨ sg = '-' then
          if (rest.takeWhile Char.isDigit).isEmpty then ([], s)
          else (e :: sg :: rest.takeWhile Char.isDigit, rest.dropWhile Char.isDigit)
        else
          if ((sg :: rest).takeWhile Char.isDigit).isEmpty then ([], s)
          else (e :: (sg :: rest).takeWhile Char.isDigit,
                (sg :: rest).dropWhile Char.isDigit)
      else ([], s)
  | _ => ([], s)

/-- Unsigned number lexeme: integer part, then optional fraction and
exponent.  Returns the lexeme and the rest of the input. -/
def parseNumCore (s : List Char) : Option (List Char × List Char) :=
  match parseIntPart s with
  | none => none
  | some (ip, r1) =>
      let fr := parseFrac r1
      let ex := parseExp fr.2
      some (ip ++ fr.1 ++ ex.1, ex.2)

/-- A JSON number, mirroring Python's `NUMBER_RE` maximal-munch match. -/
def parseNum (s : List Char) : Option (Json × List Char) :=
  match s with
  | '-' :: rest =>
      (parseNumCore rest).map (fun p => (Json.num (String.mk ('-' :: p.1)), p.2))
  | _ => (parseNumCore s).map (fun p => (Json.num (String.mk p.1), p.2))

/-- Strip an exact literal from the front of the input. -/
def stripLit : List Char → List Char → Option (List Char)
  | [], s => some s
  | l :: ls, c :: cs => if c = l then stripLit ls cs else none
  | _ :: _, [] => none

/-- Insert a key/value pair into an insertion-ordered field list with
Python `dict` semantics: an existing key keeps its position and gets the
new value, a fresh key is appended. -/
def insertKey (acc : List (String × Json)) (k : String) (v : Json) :
    List (String × Json) :=
  if acc.any (fun p => p.1 == k) then
    acc.map (fun p => if p.1 == k then (k, v) else p)
  else acc ++ [(k, v)]

/-- Parser modes: `val` parses one JSON value; `members acc` parses the
members of an object from the first key onward (input starts at a `"`);
`elems acc` parses the continuation of an array after an element
(whitespace, then `,` element or `]`). -/
inductive PMode where
  | val
  | members (acc : List (String × Json))
  | elems (acc : List Json)

/-- Fueled recursive-descent JSON parser, the model of Python's
`json.loads` scanner.  Each recursive call strictly consumes input, so
`length + 1` fuel always suffices (proved below). -/
def parseP : Nat → PMode → List Char → Option (Json × List Char)
  | 0, _, _ => none
  | fuel + 1, .val, s =>
    match s with
    | [] => none
    | '{' :: cs =>
        (match skipWs cs with
         | '}' :: r => some (.obj [], r)
         | u => parseP fuel (.members []) u)
    | '[' :: cs =>
        (match skipWs cs with
         | ']' :: r => some (.arr [], r)
         | u =>
           match parseP fuel .val u with
           | none => none
           | some (v, r) => parseP fuel (.elems [v]) r)
    | '"' :: cs => (parseStr cs).map (fun p => (.str (String.mk p.1), p.2))
    | _ =>
      match stripLit ['t', 'r', 'u', 'e'] s with
      | some r => some (.bool true, r)
      | none =>
      match stripLit ['f', 'a', 'l', 's', 'e'] s with
      | some r => some (.bool false, r)
      | none =>
      match stripLit ['n', 'u', 'l', 'l'] s with
      | some r => some (.null, r)
      | none =>
      match stripLit ['N', 'a', 'N'] s with
      | some r => some (.num "NaN", r)
      | none =>
      match stripLit ['I', 'n', 'f', 'i', 'n', 'i', 't', 'y'] s with
      | some r => some (.num "Infinity", r)
      | none =>
      match stripLit ['-', 'I', 'n', 'f', 'i', 'n', 'i', 't', 'y'] s with
      | some r => some (.num "-Infinity", r)
      | none => parseNum s
  | fuel + 1, .members acc, s =>
    match s with
    | '"' :: cs =>
      (match parseStr cs with
       | none => none
       | some (key, s1) =>
         match skipWs s1 with
         | ':' :: s2 =>
           (match parseP fuel .val (skipWs s2) with
            | none => none
            | some (v, s3) =>
              match skipWs s3 with
              | ',' :: s4 => parseP fuel (.members (insertKey acc (String.mk key) v)) (skipWs s4)
              | '}' :: s4 => some (.obj (insertKey acc (String.mk key) v), s4)
              | _ => none)
         | _ => none)
    | _ => none
  | fuel + 1, .elems acc, s =>
    match skipWs s with
    | ',' :: s2 =>
      (match parseP fuel .val (skipWs s2) with
       | none => none
       | some (v, r) => parseP fuel (.elems (acc ++ [v])) r)
    | ']' :: s2 => some (.arr acc, s2)
    | _ => none

/-- Model of `json.loads`: skip leading whitespace, parse one value, and
require only whitespace to remain (otherwise Python raises "Extra data"). -/
def jsonDecode (s : List Char) : Option Json :=
  match parseP (s.length + 1) .val (skipWs s) with
  | some (v, r) => if skipWs r = [] then some v else none
  | none => none

/-- Python `content.find(c)`: index of the first occurrence (`none` for the
`-1` sentinel). -/
def pyFind (s : List Char) (c : Char) : Option Nat := s.findIdx? (· == c)

/-- Python `content.rfind(c)`: index of the last occurrence. -/
def pyRFind (s : List Char) (c : Char) : Option Nat :=
  (s.reverse.findIdx? (· == c)).map (fun i => s.length - 1 - i)

/-- The decode step of one internal try in `llm_propose_patches`
(src/agent.py lines 92–104): strict `json.loads`; on failure, if a `{`
occurs before a `}`, re-decode the slice `content[start:end+1]` between the
first `{` and the last `}`; `none` means the `for` loop continues. -/
def tryDecode (s : List Char) : Option Json :=
  match jsonDecode s with
  | some v => some v
  | none =>
    match pyFind s '{', pyRFind s '}' with
    | some st, some en =>
        if st < en then jsonDecode ((s.drop st).take (en + 1 - st)) else none
    | _, _ => none

/-! ## File-system model and `apply_patches` (src/agent.py lines 53–61) -/

/-- A flat file system: map from a root-relative path string to the file's
text contents (`none` = no such file).  Directories are not modelled:
`mkdir(parents=True, exist_ok=True)` only creates directories and never
fails, so it does not affect the path ↦ contents map. -/
def FS : Type := String → Option String

/-- One entry of a Plan's `patches` list, as a dict that may lack the
`path` or `content` key (`patch.get` returns `None` for a missing key). -/
structure Patch where
  path : Option String
  content : Option String
deriving DecidableEq

/-- `dest.write_text(content)`: full overwrite of one file. -/
def fsWrite (fs : FS) (p c : String) : FS :=
  fun q => if q = p then some c else fs q

/-- One iteration of the `for patch in patches` body: read `path` (skip the
patch when it is missing or empty, Python's `if not rel`), default a
missing `content` to `""`, and overwrite the file. -/
def applyPatch (fs : FS) (patch : Patch) : FS :=
  match patch.path with
  | none => fs
  | some rel => if rel = "" then fs else fsWrite fs rel (patch.content.getD "")

/-- `apply_patches(patches, root)`: write every patch in order. -/
def apply_patches (patches : List Patch) (fs : FS) : FS :=
  patches.foldl applyPatch fs

/-- The contents (if any) that a single patch writes to path `q`. -/
def patchWrites (patch : Patch) (q : String) : Option String :=
  match patch.path with
  | none => none
  | some rel =>
      if rel = "" then none
      else if rel = q then some (patch.content.getD "") else none

/-- The contents of the last patch in the list that writes to `q`. -/
def lastWrite (ps : List Patch) (q : String) : Option String :=
  ps.foldl (fun acc patch => match patchWrites patch q with
                             | some c => some c
                             | none => acc) none

/-! ## Oracle client model: `llm_propose_patches` (src/agent.py lines 72–107) -/

/-- What one internal try of `llm_propose_patches` observes from the Groq
API: either the call raised (any exception, caught by the outer `except`),
or it returned a message content string (`None` content is the same as `""`
under Python's `if not content`). -/
inductive TryOutcome where
  | exn (msg : String)
  | content (s : List Char)

/-- Python `str.strip()` whitespace (the ASCII part; the claims never
involve the further unicode space characters Python would also strip). -/
def isPyWs (c : Char) : Bool :=
  c == ' ' || c == '\t' || c == '\n' || c == '\r' || c == '\x0b' || c == '\x0c'

/-- One internal try: skip (continue the loop) on an API exception or an
empty/whitespace-only body, otherwise run the strict-then-fallback decode.
`none` means the `for attempt in range(3)` loop continues. -/
def llmTryDecode : TryOutcome → Option Json
  | .exn _ => none
  | .content s => if s.all isPyWs then none else tryDecode s

/-- The `for attempt in range(3)` loop: first successful decode is
returned; if all tries are exhausted the trailing `raise RuntimeError`
fires. -/
def llmLoop : List TryOutcome → Except String Json
  | [] => .error "All attempts to get valid JSON from Groq API failed"
  | t :: ts =>
    match llmTryDecode t with
    | some v => .ok v
    | none => llmLoop ts

/-- `llm_propose_patches`, parameterized by the API behavior of each
internal try (try indices 0, 1, 2 are the ones `range(3)` produces). -/
def llm_propose_patches (tries : Nat → TryOutcome) : Except String Json :=
  llmLoop ((List.range 3).map tries)

/-! ## Attempt loop model: `main` (src/agent.py lines 179–204) -/

/-- `plan.get(key, dflt)`: on a dict, the field's value or the default; on
any non-dict value Python raises `AttributeError` (which escapes `main`). -/
def dictGet (j : Json) (key : String) (dflt : Json) : Except String Json :=
  match j with
  | .obj fields =>
      .ok (((fields.find? (fun p => p.1 == key)).map Prod.snd).getD dflt)
  | _ => .error "AttributeError: no attribute get"

/-- `dict.get(key, dflt)` on a value already known to be a dict (never
raises). -/
def objGet (fields : List (String × Json)) (key : String) (dflt : Json) :
    Json :=
  ((fields.find? (fun p => p.1 == key)).map Prod.snd).getD dflt

/-- Whether a JSON number lexeme denotes the Python value `0`/`0.0`: sign
and exponent are irrelevant, zero means every mantissa digit is `0`
(`0`, `-0`, `0.00`, `0e5`, …).  `NaN`/`Infinity` lexemes carry no mantissa
digit and are nonzero.  (A nonzero mantissa under a hugely negative
exponent underflows to `0.0` in Python; such lexemes count as nonzero
here, which only narrows the set of runs the completion hypotheses below
admit, never claims completion for a run that crashes.) -/
def numLexZero (lex : String) : Bool :=
  let mant := lex.data.takeWhile (fun c => c != 'e' && c != 'E')
  mant.any Char.isDigit && mant.all (fun c => !c.isDigit || c == '0')

/-- Python truthiness of a decoded JSON value (`if notes:`,
`if not rel:`): `None`, `False`, zero, `""`, `[]` and an empty dict are
falsy, everything else is truthy. -/
def pyTruthy : Json → Bool
  | .null => false
  | .bool b => b
  | .str s => !s.isEmpty
  | .num lex => !numLexZero lex
  | .arr l => !l.isEmpty
  | .obj f => !f.isEmpty

/-- Lines 189–190: `if notes: print(f"Agent notes: {notes[:500]}")`.
Slicing succeeds on a `str` or a `list`; a truthy `int`/`float`/`bool`/
`dict` notes value raises `TypeError` and aborts the run.  A falsy value
skips the print entirely. -/
def notesStep (notes : Json) : Except String Unit :=
  if pyTruthy notes then
    match notes with
    | .str _ => .ok ()
    | .arr _ => .ok ()
    | _ => .error "TypeError: object is not subscriptable"
  else .ok ()

/-- One iteration of `for patch in patches` (src/agent.py lines 54–61) as
exception behavior: a non-dict element has no `.get` (`AttributeError`); a
falsy `path` is skipped before any write; a truthy non-string `path`
breaks `root / rel` and a non-string `content` breaks
`dest.write_text(content)` (both `TypeError`). -/
def patchStep (p : Json) : Except String Unit :=
  match p with
  | .obj fields =>
    if pyTruthy (objGet fields "path" .null) then
      match objGet fields "path" .null, objGet fields "content" (.str "") with
      | .str _, .str _ => .ok ()
      | .str _, _ => .error "TypeError: write_text argument must be str"
      | _, _ => .error "TypeError: unsupported operand type for /"
    else .ok ()
  | _ => .error "AttributeError: object has no attribute get"

/-- The `for patch in patches` loop raises at its first bad element. -/
def patchesLoop : List Json → Except String Unit
  | [] => .ok ()
  | p :: ps =>
    match patchStep p with
    | .error e => .error e
    | .ok _ => patchesLoop ps

/-- Exception behavior of `apply_patches(patches, root)` (line 192) as a
function of the decoded `patches` value: a list iterates its elements;
iterating a string or a dict yields strings, so the first `.get` raises
`AttributeError` (vacuously fine when empty); any other value is not
iterable (`TypeError`). -/
def apply_patches_run : Json → Except String Unit
  | .arr l => patchesLoop l
  | .str s =>
      if s.isEmpty then .ok ()
      else .error "AttributeError: object has no attribute get"
  | .obj [] => .ok ()
  | .obj (_ :: _) => .error "AttributeError: object has no attribute get"
  | _ => .error "TypeError: object is not iterable"

/-- Lines 187–192 of the loop body, from the decoded plan up to the
pytest call: `plan.get` twice (raises `AttributeError` on a non-dict
plan), the notes print, then `apply_patches`; the first uncaught
exception aborts the whole run. -/
def planSteps (plan : Json) : Except String Unit :=
  match dictGet plan "patches" (.arr []), dictGet plan "notes" (.str "") with
  | .error e, _ => .error e
  | _, .error e => .error e
  | .ok patches, .ok notes =>
    match notesStep notes with
    | .error e => .error e
    | .ok _ => apply_patches_run patches

/-- What one iteration of the attempt loop recorded: the attempt number,
the feedback text (`last_report`) carried into this attempt's prompt, and
the pytest exit code and combined output of this attempt. -/
structure AttemptRecord where
  attempt : Nat
  lastReport : String
  exitCode : Int
  report : String
deriving DecidableEq

/-- The attempt budget (src/agent.py line 8). -/
def MAX_ATTEMPTS : Nat := 3

/-- The body of `for attempt in range(1, MAX_ATTEMPTS + 1)`, with
`rem` remaining iterations.  `tries a i` is the API behavior of internal
try `i` of attempt `a`; `runTest a` is the (exit code, combined output) of
the pytest subprocess at attempt `a` — both arbitrary, covering every
oracle/verifier behavior.  The result is `main`'s outcome (`.ok 0` =
success, `.ok 1` = budget exhausted, `.error` = an uncaught exception
aborted the run) together with the trace of completed attempts.  The
exception paths of the body — `plan.get` on a non-dict plan,
`notes[:500]` on a truthy unsliceable notes value, and `apply_patches` on
a malformed patches value — are `planSteps`; any of them aborts the run
before this attempt's pytest call. -/
def loopAux (tries : Nat → Nat → TryOutcome) (runTest : Nat → Int × String) :
    Nat → Nat → String → Except String Int × List AttemptRecord
  | 0, _, _ => (.ok 1, [])
  | rem + 1, attempt, lastReport =>
    match llm_propose_patches (tries attempt) with
    | .error e => (.error e, [])
    | .ok plan =>
      match planSteps plan with
      | .error e => (.error e, [])
      | .ok _ =>
        let code := (runTest attempt).1
        let report := (runTest attempt).2
        if code = 0 then (.ok 0, [⟨attempt, lastReport, code, report⟩])
        else
          let next := loopAux tries runTest rem (attempt + 1) report
          (next.1, ⟨attempt, lastReport, code, report⟩ :: next.2)

/-- `main`: run the attempt loop from attempt 1 with empty feedback. -/
def runMain (tries : Nat → Nat → TryOutcome) (runTest : Nat → Int × String) :
    Except String Int × List AttemptRecord :=
  loopAux tries runTest MAX_ATTEMPTS 1 ""

/-- The trace the attempt loop produces when every attempt runs and fails:
attempt `a` records the feedback it was given, and passes its own pytest
report to attempt `a + 1`. -/
def expectedTrace (runTest : Nat → Int × String) :
    Nat → String → Nat → List AttemptRecord
  | _, _, 0 => []
  | attempt, lr, rem + 1 =>
      ⟨attempt, lr, (runTest attempt).1, (runTest attempt).2⟩ ::
        expectedTrace runTest (attempt + 1) (runTest attempt).2 rem

/-- Whether a decoded JSON value is an object carrying a given key. -/
def hasKey (j : Json) (k : String) : Bool :=
  match j with
  | .obj fields => fields.any (fun p => p.1 == k)
  | _ => false

/-! ## Context gatherer: `repo_context` (src/agent.py lines 11–51) -/

/-- One file found by `root.rglob("*")` with `p.is_file()`: its path
components (`p.parts`) and its path relative to the root
(`p.relative_to(root)` as a string). -/
structure FileEntry where
  parts : List String
  rel : String
deriving DecidableEq

/-- Directory segments excluded from the snapshot (src/agent.py line 36). -/
def excludedSegs : List String := [".venv", "venv", "__pycache__", ".git"]

/-- Python `sorted` on strings (lexicographic by code point). -/
def sortStrings (l : List String) : List String := l.mergeSort

/-- `file_tree_snapshot`: keep files with no excluded path segment, take
their relative paths, and sort.  The traversal order of `rglob` is
OS-dependent, so it is passed in as an arbitrary enumeration `walk`. -/
def file_tree_snapshot (walk : List FileEntry) : List String :=
  sortStrings
    ((walk.filter
        (fun e => !(excludedSegs.any (fun seg => e.parts.contains seg)))).map
      FileEntry.rel)

/-- `read_existing_files`: contents of the paths that exist, in the given
order (a Python dict keyed by path, insertion-ordered).  A read error
yields `""` in the code; the file-system model reads never fail. -/
def read_existing_files (fs : FS) (paths : List String) : List (String × String) :=
  paths.filterMap (fun p => (fs p).map (fun c => (p, c)))

/-- The Context Snapshot returned by `repo_context` (a Python dict with
these fixed keys — in particular no timestamp-dependent field). -/
structure RepoContext where
  root : String
  target : String
  data_pdf_exists : Bool
  data_csv_exists : Bool
  data_pdf : String
  data_csv : String
  present_files : List String
  existing_contents : List (String × String)
deriving DecidableEq

/-- `repo_context(target)`: pure function of the target, the root path,
the file contents, and the `rglob` enumeration.  The
`data_dir.mkdir(parents=True, exist_ok=True)` side effect creates an
(empty) directory only, which `file_tree_snapshot` filters out via
`p.is_file()`, so it does not appear in the model. -/
def repo_context (target root : String) (fs : FS) (walk : List FileEntry) :
    RepoContext :=
  let data_pdf := root ++ "/data/" ++ target ++ "/" ++ target ++ " sample.pdf"
  let data_csv := root ++ "/data/" ++ target ++ "/result.csv"
  { root := root
    target := target
    data_pdf_exists := (fs data_pdf).isSome
    data_csv_exists := (fs data_csv).isSome
    data_pdf := data_pdf
    data_csv := data_csv
    present_files := file_tree_snapshot walk
    existing_contents :=
      read_existing_files fs
        [root ++ "/custom_parsers/" ++ target ++ "_parser.py",
         root ++ "/tests/test_" ++ target ++ ".py"] }

/-! ## Theorems about `apply_patches` -/

/-- Reading one patch application at a path. -/
theorem applyPatch_apply (fs : FS) (p : Patch) (q : String) :
    applyPatch fs p q =
      (match patchWrites p q with
       | some c => some c
       | none => fs q) := by
  unfold applyPatch patchWrites
  cases hp : p.path with
  | none => rfl
  | some rel =>
    by_cases h1 : rel = ""
    · simp [h1]
    · by_cases h2 : rel = q
      · subst h2; simp [h1, fsWrite]
      · simp only [if_neg h1, if_neg h2, fsWrite]
        rw [if_neg (fun h => h2 h.symm)]

/-- Folding the last-writer accumulator from an arbitrary start. -/
theorem lastWrite_go (ps : List Patch) (q : String) (acc : Option String) :
    ps.foldl (fun acc patch => match patchWrites patch q with
                               | some c => some c
                               | none => acc) acc =
      (match lastWrite ps q with
       | some c => some c
       | none => acc) := by
  induction ps generalizing acc with
  | nil => simp [lastWrite]
  | cons p ps ih =>
    rw [List.foldl_cons, ih]
    conv_rhs => rw [lastWrite, List.foldl_cons, ih]
    cases lastWrite ps q <;> cases hy : patchWrites p q <;> simp [hy]

/-- The file at `q` after `apply_patches` is the content of the last patch
writing to `q`, or the old content if no patch writes there. -/
theorem apply_patches_at (ps : List Patch) (fs : FS) (q : String) :
    apply_patches ps fs q =
      (match lastWrite ps q with
       | some c => some c
       | none => fs q) := by
  induction ps generalizing fs with
  | nil => rfl
  | cons p ps ih =>
    show apply_patches ps (applyPatch fs p) q = _
    rw [ih]
    conv_rhs => rw [lastWrite, List.foldl_cons, lastWrite_go]
    rw [applyPatch_apply]
    cases lastWrite ps q <;> cases hy : patchWrites p q <;> simp [hy]

/-- A path no patch targets has `lastWrite = none`. -/
theorem lastWrite_eq_none (ps : List Patch) (q : String)
    (h : ∀ p ∈ ps, patchWrites p q = none) : lastWrite ps q = none := by
  induction ps with
  | nil => rfl
  | cons p ps ih =>
    rw [lastWrite, List.foldl_cons, lastWrite_go]
    rw [ih (fun p hp => h p (List.mem_cons_of_mem _ hp))]
    simp [h p (List.mem_cons_self _ _)]

/-- C7: applying the same Plan twice produces the same file tree as
applying it once — every patch is a full overwrite, so the second pass
rewrites each file with the same contents. -/
theorem apply_patches_idempotent (patches : List Patch) (fs : FS) :
    apply_patches patches (apply_patches patches fs) =
      apply_patches patches fs := by
  funext q
  rw [apply_patches_at]
  cases h : lastWrite patches q with
  | some c => rw [apply_patches_at, h]
  | none => rfl

/-- C9 (frame property): `apply_patches` leaves every file whose path is
not the `path` of some patch entry untouched. -/
theorem apply_patches_frame (patches : List Patch) (fs : FS) (q : String)
    (h : ∀ p ∈ patches, p.path ≠ some q) :
    apply_patches patches fs q = fs q := by
  rw [apply_patches_at, lastWrite_eq_none]
  intro p hp
  have hh := h p hp
  unfold patchWrites
  cases hc : p.path with
  | none => rfl
  | some rel =>
    rw [hc] at hh
    have : rel ≠ q := fun he => hh (by rw [he])
    by_cases h1 : rel = "" <;> simp [h1, this]

/-- Witness for C9 at a concrete plan, file system and path. -/
theorem apply_patches_frame_witness :
    (∀ p ∈ [(⟨some "custom_parsers/icici_parser.py", some "x"⟩ : Patch)],
        p.path ≠ some "data/icici/result.csv") ∧
      apply_patches [⟨some "custom_parsers/icici_parser.py", some "x"⟩]
          (fun _ => none) "data/icici/result.csv" =
        (fun _ => (none : Option String)) "data/icici/result.csv" :=
  ⟨by decide, apply_patches_frame _ _ _ (by decide)⟩

/-- C6: a patch entry with a missing (or empty, which Python's `if not
rel` also skips) path is skipped: it writes no file, raises nothing, and
the remaining entries are applied exactly as if it were absent. -/
theorem apply_patches_skips_pathless (l1 l2 : List Patch) (e : Patch) (fs : FS)
    (h : e.path = none ∨ e.path = some "") :
    apply_patches (l1 ++ e :: l2) fs = apply_patches (l1 ++ l2) fs := by
  unfold apply_patches
  rw [List.foldl_append, List.foldl_append, List.foldl_cons]
  rcases h with h | h <;> rw [applyPatch] <;> simp [h]

/-- Witness for C6: a three-entry plan whose middle entry has no path
behaves like the two-entry plan around it. -/
theorem apply_patches_skips_pathless_witness :
    apply_patches
        ([(⟨some "a.py", some "A"⟩ : Patch)] ++
          (⟨none, some "ghost"⟩ : Patch) :: [(⟨some "b.py", none⟩ : Patch)])
        (fun _ => none) =
      apply_patches [(⟨some "a.py", some "A"⟩ : Patch), ⟨some "b.py", none⟩]
        (fun _ => none) :=
  apply_patches_skips_pathless _ _ _ _ (Or.inl rfl)

/-- C10: a patch entry with a path but no `content` key is not skipped:
`patch.get("content", "")` defaults to `""` and the file is overwritten
with the empty string at that entry's position in the plan. -/
theorem apply_patches_contentless_writes_empty (l1 l2 : List Patch)
    (p : Patch) (rel : String) (fs : FS) (hpath : p.path = some rel)
    (hne : rel ≠ "") (hc : p.content = none) :
    apply_patches (l1 ++ p :: l2) fs =
      apply_patches l2 (fsWrite (apply_patches l1 fs) rel "") := by
  unfold apply_patches
  rw [List.foldl_append, List.foldl_cons, applyPatch]
  simp [hpath, hne, hc]

/-- Witness for C10: the contentless entry creates `notes.md` containing
`""` even though other entries surround it. -/
theorem apply_patches_contentless_writes_empty_witness :
    apply_patches
        ([(⟨some "a.py", some "A"⟩ : Patch)] ++
          (⟨some "notes.md", none⟩ : Patch) :: []) (fun _ => none) =
      apply_patches []
        (fsWrite (apply_patches [(⟨some "a.py", some "A"⟩ : Patch)]
            (fun _ => none)) "notes.md" "") :=
  apply_patches_contentless_writes_empty _ _ _ _ _ rfl (by decide) rfl

/-! ## Theorems about `repo_context` -/

/-- Sorting is invariant under permutation of the input. -/
theorem sortStrings_perm_eq {l l' : List String} (h : l.Perm l') :
    sortStrings l = sortStrings l' :=
  List.eq_of_perm_of_sorted
    ((l.mergeSort_perm _).trans (h.trans (l'.mergeSort_perm _).symm))
    (List.sorted_mergeSort' l) (List.sorted_mergeSort' l')

/-- C8: the Context Snapshot is a pure function of the file tree — two
computations over the same contents whose `rglob` traversals enumerate the
same files (in any order) return equal snapshots: same existence booleans,
same sorted relative file list, same path ↦ contents mapping.  The
`RepoContext` record has no timestamp-dependent field by construction. -/
theorem repo_context_deterministic (target root : String) (fs : FS)
    {walk walk' : List FileEntry} (h : walk.Perm walk') :
    repo_context target root fs walk = repo_context target root fs walk' := by
  have hsnap : file_tree_snapshot walk = file_tree_snapshot walk' := by
    unfold file_tree_snapshot
    exact sortStrings_perm_eq ((h.filter _).map _)
  unfold repo_context
  rw [hsnap]

/-- Witness for C8: two traversal orders of the same three files. -/
theorem repo_context_deterministic_witness :
    repo_context "icici" "/r" (fun _ => none)
        [⟨["/", "r", "agent.py"], "agent.py"⟩,
         ⟨["/", "r", ".git", "x"], ".git/x"⟩,
         ⟨["/", "r", "tests", "t.py"], "tests/t.py"⟩] =
      repo_context "icici" "/r" (fun _ => none)
        [⟨["/", "r", "tests", "t.py"], "tests/t.py"⟩,
         ⟨["/", "r", "agent.py"], "agent.py"⟩,
         ⟨["/", "r", ".git", "x"], ".git/x"⟩] :=
  repo_context_deterministic _ _ _ (by decide)

/-! ## Theorems about the attempt loop -/

/-- The loop records at most `rem` attempts. -/
theorem loopAux_trace_le (tries : Nat → Nat → TryOutcome)
    (runTest : Nat → Int × String) :
    ∀ rem attempt lr, (loopAux tries runTest rem attempt lr).2.length ≤ rem := by
  intro rem
  induction rem with
  | zero => intro a lr; simp [loopAux]
  | succ rem ih =>
    intro a lr
    rw [loopAux]
    cases llm_propose_patches (tries a) with
    | error e => simp
    | ok plan =>
      cases hp : planSteps plan with
      | error e => simp [hp]
      | ok u =>
        simp only [hp]
        by_cases hc : (runTest a).1 = 0
        · simp [hc]
        · simp only [if_neg hc, List.length_cons]
          exact Nat.succ_le_succ (ih (a + 1) (runTest a).2)

/-- Length of the all-fail trace. -/
theorem expectedTrace_length (runTest : Nat → Int × String) :
    ∀ rem attempt lr, (expectedTrace runTest attempt lr rem).length = rem := by
  intro rem
  induction rem with
  | zero => intro a lr; rfl
  | succ rem ih => intro a lr; simp [expectedTrace, ih]

/-- When the oracle always yields a Plan whose loop body completes
without an exception and every verification fails, the loop runs all its
iterations and exhausts the budget. -/
theorem loopAux_all_fail (tries : Nat → Nat → TryOutcome)
    (runTest : Nat → Int × String)
    (hok : ∀ k, ∃ plan, llm_propose_patches (tries k) = .ok plan ∧
      planSteps plan = .ok ())
    (hfail : ∀ k, (runTest k).1 ≠ 0) :
    ∀ rem attempt lr, loopAux tries runTest rem attempt lr =
      (.ok 1, expectedTrace runTest attempt lr rem) := by
  intro rem
  induction rem with
  | zero => intro a lr; rfl
  | succ rem ih =>
    intro a lr
    obtain ⟨plan, hf, hs⟩ := hok a
    rw [loopAux, hf]
    simp only [hs]
    rw [if_neg (hfail a), ih (a + 1) (runTest a).2]
    rfl

/-- C1: for every oracle behavior and every verifier behavior the attempt
loop performs at most `MAX_ATTEMPTS` (= 3) iterations (an uncaught
exception in the body only shortens the run further); and when the oracle
always answers with a Plan whose loop body completes — including the
identical Plan every time, since nothing inspects Plan repetition — while
verification always fails, it performs exactly `MAX_ATTEMPTS` iterations
and stops in the exhausted state.  Termination itself is structural:
`loopAux` recurses on the remaining-iterations bound. -/
theorem attempt_loop_bounded (tries : Nat → Nat → TryOutcome)
    (runTest : Nat → Int × String) :
    (runMain tries runTest).2.length ≤ MAX_ATTEMPTS ∧
      ((∀ k, ∃ plan, llm_propose_patches (tries k) = .ok plan ∧
          planSteps plan = .ok ()) →
        (∀ k, (runTest k).1 ≠ 0) →
        (runMain tries runTest).2.length = MAX_ATTEMPTS ∧
          (runMain tries runTest).1 = .ok 1) := by
  refine ⟨loopAux_trace_le tries runTest MAX_ATTEMPTS 1 "", ?_⟩
  intro hok hfail
  rw [runMain, loopAux_all_fail tries runTest hok hfail]
  exact ⟨expectedTrace_length runTest MAX_ATTEMPTS 1 "", rfl⟩

/-- Witness for C1: a constant oracle Plan `{}` (whose body completes:
both fields default, the notes print is skipped, `apply_patches` gets an
empty list) with always-failing verification runs exactly 3 attempts and
exits with code 1. -/
theorem attempt_loop_bounded_witness :
    (runMain (fun _ _ => .content ['{', '}'])
          (fun _ => (1, "F"))).2.length ≤ MAX_ATTEMPTS ∧
      (runMain (fun _ _ => .content ['{', '}'])
            (fun _ => (1, "F"))).2.length = MAX_ATTEMPTS ∧
        (runMain (fun _ _ => .content ['{', '}'])
            (fun _ => (1, "F"))).1 = .ok 1 :=
  ⟨(attempt_loop_bounded _ _).1,
    (attempt_loop_bounded _ _).2 (fun _ => ⟨.obj [], rfl, rfl⟩)
      (fun _ => by decide)⟩

/-- When the oracle yields Plans whose loop body completes up to attempt
`m`, attempts before `m` fail and attempt `m` verifies with exit code 0,
the loop stops at `m` with success. -/
theorem loopAux_success (tries : Nat → Nat → TryOutcome)
    (runTest : Nat → Int × String) :
    ∀ rem a lr m, a ≤ m → m < a + rem →
      (∀ k, a ≤ k → k ≤ m → ∃ plan,
        llm_propose_patches (tries k) = .ok plan ∧ planSteps plan = .ok ()) →
      (∀ k, a ≤ k → k < m → (runTest k).1 ≠ 0) →
      (runTest m).1 = 0 →
      loopAux tries runTest rem a lr =
        (.ok 0, expectedTrace runTest a lr (m + 1 - a)) := by
  intro rem
  induction rem with
  | zero => intro a lr m hle hlt _ _ _; exact absurd hlt (by omega)
  | succ rem ih =>
    intro a lr m hle hlt hok hfail hm
    obtain ⟨plan, hf, hs⟩ := hok a le_rfl hle
    rw [loopAux, hf]
    simp only [hs]
    by_cases ha : a = m
    · subst ha
      rw [if_pos hm]
      have h1 : a + 1 - a = 1 := by omega
      rw [h1]
      rfl
    · have hfa : (runTest a).1 ≠ 0 := hfail a le_rfl (by omega)
      rw [if_neg hfa,
        ih (a + 1) (runTest a).2 m (by omega) (by omega)
          (fun k hk1 hk2 => hok k (by omega) hk2)
          (fun k hk1 hk2 => hfail k (by omega) hk2) hm]
      have h1 : m + 1 - a = (m - a) + 1 := by omega
      have h2 : m + 1 - (a + 1) = m - a := by omega
      rw [h1, h2]
      rfl

/-- Range-scoped version of the exhaustion lemma: if the oracle yields
Plans whose loop body completes and verification fails throughout the
window, the budget is exhausted. -/
theorem loopAux_all_fail_range (tries : Nat → Nat → TryOutcome)
    (runTest : Nat → Int × String) :
    ∀ rem a lr,
      (∀ k, a ≤ k → k < a + rem → ∃ plan,
        llm_propose_patches (tries k) = .ok plan ∧ planSteps plan = .ok ()) →
      (∀ k, a ≤ k → k < a + rem → (runTest k).1 ≠ 0) →
      loopAux tries runTest rem a lr = (.ok 1, expectedTrace runTest a lr rem) := by
  intro rem
  induction rem with
  | zero => intro a lr _ _; rfl
  | succ rem ih =>
    intro a lr hok hfail
    obtain ⟨plan, hf, hs⟩ := hok a le_rfl (by omega)
    rw [loopAux, hf]
    simp only [hs]
    rw [if_neg (hfail a le_rfl (by omega)),
      ih (a + 1) (runTest a).2
        (fun k hk1 hk2 => hok k (by omega) (by omega))
        (fun k hk1 hk2 => hfail k (by omega) (by omega))]
    rfl

/-- Shape of one unfolding of the loop body: either it aborted with an
empty trace, or attempt `a` succeeded and is the only record, or attempt
`a` failed and the recursion's trace follows it. -/
theorem loopAux_succ_trace (tries : Nat → Nat → TryOutcome)
    (runTest : Nat → Int × String) (rem a : Nat) (lr : String) :
    (loopAux tries runTest (rem + 1) a lr).2 = [] ∨
      ((runTest a).1 = 0 ∧
        (loopAux tries runTest (rem + 1) a lr).2 =
          [⟨a, lr, (runTest a).1, (runTest a).2⟩]) ∨
      ((runTest a).1 ≠ 0 ∧
        (loopAux tries runTest (rem + 1) a lr).2 =
          ⟨a, lr, (runTest a).1, (runTest a).2⟩ ::
            (loopAux tries runTest rem (a + 1) (runTest a).2).2) := by
  rw [loopAux]
  cases llm_propose_patches (tries a) with
  | error e => exact Or.inl rfl
  | ok plan =>
    cases hp : planSteps plan with
    | error e => exact Or.inl (by simp [hp])
    | ok u =>
      simp only [hp]
      by_cases hc : (runTest a).1 = 0
      · exact Or.inr (Or.inl ⟨hc, by simp [hc]⟩)
      · exact Or.inr (Or.inr ⟨hc, by simp [hc]⟩)

/-- The first record of a loop trace carries the feedback the loop was
started with. -/
theorem loopAux_head (tries : Nat → Nat → TryOutcome)
    (runTest : Nat → Int × String) :
    ∀ rem a lr r, (loopAux tries runTest rem a lr).2[0]? = some r →
      r.lastReport = lr := by
  intro rem a lr r h
  cases rem with
  | zero => simp [loopAux] at h
  | succ rem =>
    rcases loopAux_succ_trace tries runTest rem a lr with ht | ⟨_, ht⟩ | ⟨_, ht⟩ <;>
      rw [ht] at h
    · simp at h
    · rw [List.getElem?_cons_zero] at h
      injection h with h
      rw [← h]
    · rw [List.getElem?_cons_zero] at h
      injection h with h
      rw [← h]

/-- C2's feedback threading, fully generally: in any loop trace, every
record but the last has a nonzero exit code, and the next record's
feedback is exactly the previous record's pytest report. -/
theorem loopAux_chain (tries : Nat → Nat → TryOutcome)
    (runTest : Nat → Int × String) :
    ∀ rem a lr i r r',
      (loopAux tries runTest rem a lr).2[i]? = some r →
      (loopAux tries runTest rem a lr).2[i + 1]? = some r' →
      r.exitCode ≠ 0 ∧ r'.lastReport = r.report := by
  intro rem
  induction rem with
  | zero => intro a lr i r r' h _; simp [loopAux] at h
  | succ rem ih =>
    intro a lr i r r' h h'
    rcases loopAux_succ_trace tries runTest rem a lr with ht | ⟨_, ht⟩ | ⟨hc, ht⟩
    · rw [ht] at h; simp at h
    · rw [ht, List.getElem?_cons_succ] at h'; simp at h'
    · rw [ht] at h h'
      cases i with
      | zero =>
        rw [List.getElem?_cons_zero] at h
        injection h with h
        rw [List.getElem?_cons_succ] at h'
        refine ⟨by rw [← h]; exact hc, ?_⟩
        rw [← h]
        exact loopAux_head tries runTest rem (a + 1) (runTest a).2 r' h'
      | succ i =>
        rw [List.getElem?_cons_succ] at h h'
        exact ih (a + 1) (runTest a).2 i r r' h h'

/-- C2: with an oracle that on every attempt yields a Plan whose loop body
completes — a dict plan with a printable notes value and an applicable
patches value, so no uncaught exception aborts the run — the run's result
is `0` exactly when some attempt's verification exits 0 — and the loop
stops at the first such attempt — and `1` exactly when all `MAX_ATTEMPTS`
verifications fail; each failed attempt's report is the next attempt's
feedback. -/
theorem main_exit_codes (tries : Nat → Nat → TryOutcome)
    (runTest : Nat → Int × String)
    (hok : ∀ k, 1 ≤ k → k ≤ MAX_ATTEMPTS → ∃ plan,
      llm_propose_patches (tries k) = .ok plan ∧ planSteps plan = .ok ()) :
    ((runMain tries runTest).1 = .ok 0 ↔
        ∃ k, 1 ≤ k ∧ k ≤ MAX_ATTEMPTS ∧ (runTest k).1 = 0) ∧
      ((runMain tries runTest).1 = .ok 1 ↔
        ∀ k, 1 ≤ k → k ≤ MAX_ATTEMPTS → (runTest k).1 ≠ 0) ∧
      (∀ m, 1 ≤ m → m ≤ MAX_ATTEMPTS → (runTest m).1 = 0 →
        (∀ j, 1 ≤ j → j < m → (runTest j).1 ≠ 0) →
        (runMain tries runTest).1 = .ok 0 ∧
          (runMain tries runTest).2.length = m) ∧
      (∀ i r r', (runMain tries runTest).2[i]? = some r →
        (runMain tries runTest).2[i + 1]? = some r' →
        r.exitCode ≠ 0 ∧ r'.lastReport = r.report) := by
  have hstop : ∀ m, 1 ≤ m → m ≤ MAX_ATTEMPTS → (runTest m).1 = 0 →
      (∀ j, 1 ≤ j → j < m → (runTest j).1 ≠ 0) →
      (runMain tries runTest).1 = .ok 0 ∧
        (runMain tries runTest).2.length = m := by
    intro m h1 h3 hm hprev
    rw [runMain, loopAux_success tries runTest MAX_ATTEMPTS 1 "" m h1
      (by rw [MAX_ATTEMPTS] at h3 ⊢; omega)
      (fun k hk1 hk2 => hok k hk1 (le_trans hk2 h3)) hprev hm]
    exact ⟨rfl, by rw [expectedTrace_length]; omega⟩
  have hfind : (∃ k, 1 ≤ k ∧ k ≤ MAX_ATTEMPTS ∧ (runTest k).1 = 0) →
      (runMain tries runTest).1 = .ok 0 := by
    intro hex
    have hP := Nat.find_spec hex
    have hmin : ∀ j, j < Nat.find hex →
        ¬(1 ≤ j ∧ j ≤ MAX_ATTEMPTS ∧ (runTest j).1 = 0) :=
      fun j hj => Nat.find_min hex hj
    exact (hstop (Nat.find hex) hP.1 hP.2.1 hP.2.2
      (fun j hj1 hjlt hj0 =>
        hmin j hjlt ⟨hj1, le_trans (le_of_lt hjlt) hP.2.1, hj0⟩)).1
  have hallfail : (∀ k, 1 ≤ k → k ≤ MAX_ATTEMPTS → (runTest k).1 ≠ 0) →
      (runMain tries runTest).1 = .ok 1 := by
    intro hfa
    rw [runMain, loopAux_all_fail_range tries runTest MAX_ATTEMPTS 1 ""
      (fun k hk1 hk2 => hok k hk1 (by rw [MAX_ATTEMPTS] at hk2 ⊢; omega))
      (fun k hk1 hk2 => hfa k hk1 (by rw [MAX_ATTEMPTS] at hk2 ⊢; omega))]
  refine ⟨⟨?_, hfind⟩, ⟨?_, hallfail⟩, hstop,
    fun i r r' => loopAux_chain tries runTest MAX_ATTEMPTS 1 "" i r r'⟩
  · intro h0
    by_contra hno
    push_neg at hno
    have := hallfail (fun k hk1 hk2 => hno k hk1 hk2)
    rw [this] at h0
    exact absurd (by injection h0) (by norm_num)
  · intro h1
    by_contra hno
    push_neg at hno
    obtain ⟨k, hk1, hk2, hk0⟩ := hno
    have := hfind ⟨k, hk1, hk2, hk0⟩
    rw [this] at h1
    exact absurd (by injection h1) (by norm_num)

/-- Witness for C2 at a concrete oracle (constant Plan `{}`) and a
verifier that succeeds exactly at attempt 2. -/
theorem main_exit_codes_witness :
    ((runMain (fun _ _ => .content ['{', '}'])
          (fun k => (if k = 2 then 0 else 1, "out"))).1 = .ok 0 ↔
        ∃ k, 1 ≤ k ∧ k ≤ MAX_ATTEMPTS ∧
          ((fun k => ((if k = 2 then 0 else 1 : Int), "out")) k).1 = 0) ∧
      ((runMain (fun _ _ => .content ['{', '}'])
            (fun k => (if k = 2 then 0 else 1, "out"))).1 = .ok 1 ↔
        ∀ k, 1 ≤ k → k ≤ MAX_ATTEMPTS →
          ((fun k => ((if k = 2 then 0 else 1 : Int), "out")) k).1 ≠ 0) ∧
      (∀ m, 1 ≤ m → m ≤ MAX_ATTEMPTS →
        ((fun k => ((if k = 2 then 0 else 1 : Int), "out")) m).1 = 0 →
        (∀ j, 1 ≤ j → j < m →
          ((fun k => ((if k = 2 then 0 else 1 : Int), "out")) j).1 ≠ 0) →
        (runMain (fun _ _ => .content ['{', '}'])
            (fun k => (if k = 2 then 0 else 1, "out"))).1 = .ok 0 ∧
          (runMain (fun _ _ => .content ['{', '}'])
              (fun k => (if k = 2 then 0 else 1, "out"))).2.length = m) ∧
      (∀ i r r',
        (runMain (fun _ _ => .content ['{', '}'])
            (fun k => (if k = 2 then 0 else 1, "out"))).2[i]? = some r →
        (runMain (fun _ _ => .content ['{', '}'])
            (fun k => (if k = 2 then 0 else 1, "out"))).2[i + 1]? = some r' →
        r.exitCode ≠ 0 ∧ r'.lastReport = r.report) :=
  main_exit_codes _ _ (fun _ _ _ => ⟨.obj [], rfl, rfl⟩)

/-- C3, part for `llm_propose_patches` and its interaction with `main`:
the internal retry loop consults only tries 0, 1, 2; when none of the three
tries decodes, the call fails with the `RuntimeError`; and — provided the
attempts before it completed their loop bodies (decoded Plans that survive
the notes print and the patch application) with failing verifications — an
oracle failure at the attempt the loop has reached aborts the entire run:
the result is that error and the trace stops before the failing attempt,
so no further attempt runs. -/
theorem oracle_retry_bound_and_abort (tries tries' : Nat → TryOutcome)
    (atries : Nat → Nat → TryOutcome) (runTest : Nat → Int × String)
    (k : Nat) (e : String) :
    ((∀ i, i < 3 → tries i = tries' i) →
        llm_propose_patches tries = llm_propose_patches tries') ∧
      ((∀ i, i < 3 → llmTryDecode (tries i) = none) →
        llm_propose_patches tries =
          .error "All attempts to get valid JSON from Groq API failed") ∧
      (1 ≤ k → k ≤ MAX_ATTEMPTS →
        (∀ j, 1 ≤ j → j < k →
          (∃ plan, llm_propose_patches (atries j) = .ok plan ∧
            planSteps plan = .ok ()) ∧
            (runTest j).1 ≠ 0) →
        llm_propose_patches (atries k) = .error e →
        (runMain atries runTest).1 = .error e ∧
          (runMain atries runTest).2.length = k - 1) := by
  refine ⟨?_, ?_, ?_⟩
  · intro h
    show llmLoop [tries 0, tries 1, tries 2] =
      llmLoop [tries' 0, tries' 1, tries' 2]
    rw [h 0 (by omega), h 1 (by omega), h 2 (by omega)]
  · intro h
    show llmLoop [tries 0, tries 1, tries 2] = _
    rw [llmLoop, h 0 (by omega), llmLoop, h 1 (by omega), llmLoop,
      h 2 (by omega)]
    rfl
  · intro hk1 hk3 hprev herr
    rw [MAX_ATTEMPTS] at hk3
    interval_cases k
    · have hR : runMain atries runTest = (.error e, []) := by
        rw [runMain, show MAX_ATTEMPTS = 2 + 1 from rfl, loopAux, herr]
      exact ⟨by rw [hR], by rw [hR]; rfl⟩
    · obtain ⟨⟨p1, h1, hs1⟩, hf1⟩ := hprev 1 le_rfl (by omega)
      have hR : runMain atries runTest =
          (.error e, [⟨1, "", (runTest 1).1, (runTest 1).2⟩]) := by
        rw [runMain, show MAX_ATTEMPTS = 2 + 1 from rfl, loopAux, h1]
        simp only [hs1]
        rw [if_neg hf1, show (2 : Nat) = 1 + 1 from rfl, loopAux, herr]
      exact ⟨by rw [hR], by rw [hR]; rfl⟩
    · obtain ⟨⟨p1, h1, hs1⟩, hf1⟩ := hprev 1 le_rfl (by omega)
      obtain ⟨⟨p2, h2, hs2⟩, hf2⟩ := hprev 2 (by omega) (by omega)
      have hR : runMain atries runTest =
          (.error e, [⟨1, "", (runTest 1).1, (runTest 1).2⟩,
            ⟨2, (runTest 1).2, (runTest 2).1, (runTest 2).2⟩]) := by
        rw [runMain, show MAX_ATTEMPTS = 2 + 1 from rfl, loopAux, h1]
        simp only [hs1]
        rw [if_neg hf1, show (2 : Nat) = 1 + 1 from rfl, loopAux, h2]
        simp only [hs2]
        rw [if_neg hf2, show (1 : Nat) = 0 + 1 from rfl, loopAux, herr]
      exact ⟨by rw [hR], by rw [hR]; rfl⟩

/-- Witness for C3: tries that never decode exhaust the internal bound;
an oracle that fails at attempt 2 (after a failing attempt 1) aborts the
whole run with one recorded attempt. -/
theorem oracle_retry_bound_and_abort_witness :
    (llm_propose_patches (fun _ => .content ['o', 'o', 'p', 's']) =
        llm_propose_patches (fun _ => .content ['o', 'o', 'p', 's'])) ∧
      (llm_propose_patches (fun _ => .content ['o', 'o', 'p', 's']) =
        .error "All attempts to get valid JSON from Groq API failed") ∧
      ((runMain
            (fun a => if a = 1 then (fun _ => .content ['{', '}'])
              else (fun _ => .content ['o', 'o', 'p', 's']))
            (fun _ => (1, "F"))).1 =
          .error "All attempts to get valid JSON from Groq API failed" ∧
        (runMain
            (fun a => if a = 1 then (fun _ => .content ['{', '}'])
              else (fun _ => .content ['o', 'o', 'p', 's']))
            (fun _ => (1, "F"))).2.length = 2 - 1) :=
  ⟨(oracle_retry_bound_and_abort _ (fun _ => .content ['o', 'o', 'p', 's'])
      (fun _ _ => .content ['o', 'o', 'p', 's']) (fun _ => (1, "F")) 1 "").1
      (fun _ _ => rfl),
    (oracle_retry_bound_and_abort (fun _ => .content ['o', 'o', 'p', 's'])
      (fun _ => .content ['o', 'o', 'p', 's'])
      (fun _ _ => .content ['o', 'o', 'p', 's']) (fun _ => (1, "F")) 1 "").2.1
      (fun i _ => by rfl),
    (oracle_retry_bound_and_abort (fun _ => .content ['o', 'o', 'p', 's'])
      (fun _ => .content ['o', 'o', 'p', 's'])
      (fun a => if a = 1 then (fun _ => .content ['{', '}'])
        else (fun _ => .content ['o', 'o', 'p', 's']))
      (fun _ => (1, "F")) 2
      "All attempts to get valid JSON from Groq API failed").2.2
      (by omega) (by rw [MAX_ATTEMPTS]; omega)
      (fun j hj1 hj2 => by
        have hj : j = 1 := by omega
        subst hj
        exact ⟨⟨.obj [], rfl, rfl⟩, by decide⟩)
      (by rfl)⟩

/-! ## Theorems about plan-shape handling (C5) -/

/-- `parseP` fails on empty input in value mode. -/
theorem parseP_val_nil (fuel : Nat) : parseP fuel .val [] = none := by
  cases fuel <;> rfl

/-- The head of a `dropWhile` result fails the predicate. -/
theorem dropWhile_head_false {α : Type} (p : α → Bool) (l : List α)
    (c : α) (t : List α) (h : l.dropWhile p = c :: t) : p c = false := by
  induction l with
  | nil => simp at h
  | cons x xs ih =>
    rw [List.dropWhile_cons] at h
    by_cases hx : p x = true
    · exact ih (by rwa [if_pos hx] at h)
    · rw [if_neg hx] at h
      injection h with h1 _
      rw [← h1]
      exact Bool.eq_false_iff.mpr hx

/-- A body consisting only of Python-strip whitespace decodes to nothing,
under the strict decode and under the fallback alike. -/
theorem tryDecode_ws_none (s : List Char) (h : s.all isPyWs = true) :
    tryDecode s = none := by
  have hjson : jsonDecode s = none := by
    unfold jsonDecode
    cases hd : skipWs s with
    | nil => rw [parseP_val_nil]
    | cons c t =>
      have hc : isPyWs c = true := by
        have : c ∈ s :=
          (List.dropWhile_suffix isJsonWs).subset (by rw [skipWs] at hd; rw [hd]; exact List.mem_cons_self _ _)
        exact List.all_eq_true.mp h c this
      have hj : isJsonWs c = false := dropWhile_head_false _ s c t hd
      have hcc : c = '\x0b' ∨ c = '\x0c' := by
        simp only [isPyWs, Bool.or_eq_true, beq_iff_eq] at hc
        simp only [isJsonWs, Bool.or_eq_false_iff, beq_eq_false_iff_ne,
          ne_eq] at hj
        rcases hc with ((((hc | hc) | hc) | hc) | hc) | hc <;>
          first
            | (exact Or.inl hc)
            | (exact Or.inr hc)
            | (exact absurd hc (by tauto))
      rcases hcc with hcc | hcc <;> subst hcc <;>
        (cases hfl : s.length + 1 with
          | zero => simp at hfl
          | succ n => rfl)
  rw [tryDecode, hjson]
  have hfind : pyFind s '{' = none := by
    rw [pyFind, List.findIdx?_eq_none_iff]
    intro x hx
    have : isPyWs x = true := List.all_eq_true.mp h x hx
    simp only [isPyWs, Bool.or_eq_true, beq_iff_eq] at this
    rcases this with ((((hc | hc) | hc) | hc) | hc) | hc <;> subst hc <;> rfl
  rw [hfind]

/-- Counterexample to C5: the body `{}` decodes to an object with neither
a `patches` nor a `notes` field, yet `llm_propose_patches` returns it as
the Plan instead of treating it as a format failure subject to retry — the
code performs no shape validation on a successfully decoded value. -/
theorem plan_shape_not_validated_cex :
    llm_propose_patches (fun _ => .content ['{', '}']) = .ok (Json.obj []) ∧
      hasKey (Json.obj []) "patches" = false ∧
      hasKey (Json.obj []) "notes" = false :=
  ⟨rfl, rfl, rfl⟩

/-- C5 as amended: only a body failing both the strict decode and the
fallback decode is a format failure subject to the retry policy; any body
that decodes — to a value of any shape whatsoever, with or without
`patches`/`notes` fields — is accepted and returned as the Plan. -/
theorem decoded_value_accepted (bad good : List Char) (v : Json)
    (hbad : llmTryDecode (.content bad) = none)
    (hgood : tryDecode good = some v) :
    llm_propose_patches
        (fun n => if n = 0 then .content bad else .content good) = .ok v := by
  have hnw : ¬(good.all isPyWs = true) := fun hall => by
    rw [tryDecode_ws_none good hall] at hgood
    cases hgood
  show llmLoop [.content bad, .content good, .content good] = .ok v
  rw [llmLoop, hbad, llmLoop]
  show (match llmTryDecode (.content good) with
        | some v => Except.ok v
        | none => llmLoop [.content good]) = .ok v
  rw [llmTryDecode]
  rw [if_neg hnw, hgood]

/-- Witness for the amended C5: an undecodable first try is retried, and a
decoded array (no `patches`, no `notes`, not even an object) is accepted
as the Plan. -/
theorem decoded_value_accepted_witness :
    llm_propose_patches
        (fun n => if n = 0 then .content ['o', 'o', 'p', 's']
          else .content ['[', ']']) = .ok (Json.arr []) :=
  decoded_value_accepted _ _ _ rfl rfl

/-! ## Parser lemmas for the recovery-parsing claim (C4) -/

/-- A successful `stripLit` means the literal is an exact prefix. -/
theorem stripLit_eq (lit : List Char) :
    ∀ s r, stripLit lit s = some r → s = lit ++ r := by
  induction lit with
  | nil =>
    intro s r h
    rw [stripLit] at h
    injection h with h
  | cons l ls ih =>
    intro s r h
    cases s with
    | nil => rw [stripLit] at h; cases h
    | cons c cs =>
      rw [stripLit] at h
      by_cases hc : c = l
      · rw [if_pos hc] at h
        rw [hc, List.cons_append, ih cs r h]
      · rw [if_neg hc] at h; cases h

/-- `stripLit` succeeds on its own literal. -/
theorem stripLit_self (lit : List Char) : ∀ t, stripLit lit (lit ++ t) = some t := by
  induction lit with
  | nil => intro t; rfl
  | cons l ls ih =>
    intro t
    rw [List.cons_append, stripLit, if_pos rfl]
    exact ih t

/-- A literal that does not match an extended input does not match the
original input either. -/
theorem stripLit_none_trim (lit x r : List Char)
    (h : stripLit lit (x ++ r) = none) : stripLit lit x = none := by
  cases hs : stripLit lit x with
  | none => rfl
  | some y =>
    rw [stripLit_eq lit x y hs, List.append_assoc, stripLit_self] at h
    cases h

/-- Appending does not change `skipWs` when some input survives it. -/
theorem skipWs_append_pos {x : List Char} (h : skipWs x ≠ []) (r : List Char) :
    skipWs (x ++ r) = skipWs x ++ r := by
  have h' : ¬((List.dropWhile isJsonWs x).isEmpty = true) :=
    fun hh => h (List.isEmpty_iff.mp hh)
  show List.dropWhile isJsonWs (x ++ r) = List.dropWhile isJsonWs x ++ r
  rw [List.dropWhile_append, if_neg h']

/-- `skipWs` of an all-whitespace prefix skips into the continuation. -/
theorem skipWs_append_nil {x : List Char} (h : skipWs x = []) (r : List Char) :
    skipWs (x ++ r) = skipWs r := by
  have h' : (List.dropWhile isJsonWs x).isEmpty = true := List.isEmpty_iff.mpr h
  show List.dropWhile isJsonWs (x ++ r) = List.dropWhile isJsonWs r
  rw [List.dropWhile_append, if_pos h']

/-- `skipWs` only removes characters. -/
theorem skipWs_suffix (s : List Char) : skipWs s <:+ s :=
  List.dropWhile_suffix _

/-- A successful string scan consumed a nonempty prefix, and rescanning
that prefix in front of any continuation yields the same string: the
string scanner reads no character beyond the ones it consumes. -/
theorem parseStr_replay : ∀ s cs rest, parseStr s = some (cs, rest) →
    ∃ body, body ≠ [] ∧ s = body ++ rest ∧
      ∀ t, parseStr (body ++ t) = some (cs, t) := by
  intro s
  induction s using parseStr.induct with
  | case1 => intro cs rest h; rw [parseStr] at h; cases h
  | case2 rest =>
    intro cs rest' h
    rw [parseStr] at h
    injection h with h
    obtain ⟨h1, h2⟩ := Prod.mk.injEq .. ▸ h
    subst h1; subst h2
    exact ⟨['"'], by simp, rfl, fun t => rfl⟩
  | case3 h1 h2 h3 h4 rest a b c d he4 he3 he2 he1 ih =>
    intro cs rest' h
    rw [parseStr] at h
    simp only [he1, he2, he3, he4] at h
    rw [Option.map_eq_some'] at h
    obtain ⟨p, hp, hf⟩ := h
    obtain ⟨hc, hr⟩ := Prod.mk.injEq .. ▸ hf
    obtain ⟨body', hbne, hb, hrep⟩ := ih p.1 p.2 (by rw [hp])
    subst hc; subst hr
    refine ⟨'\\' :: 'u' :: h1 :: h2 :: h3 :: h4 :: body', by simp, ?_, ?_⟩
    · rw [hb]; rfl
    · intro t
      have := hrep t
      rw [List.cons_append, List.cons_append, List.cons_append,
        List.cons_append, List.cons_append, List.cons_append, parseStr]
      simp only [he1, he2, he3, he4, this]
      rfl
  | case4 h1 h2 h3 h4 rest hm =>
    intro cs rest' h
    rw [parseStr] at h
    cases hx1 : hexVal h1 with
    | none => simp only [hx1] at h; cases h
    | some a =>
      cases hx2 : hexVal h2 with
      | none => simp only [hx1, hx2] at h; cases h
      | some b =>
        cases hx3 : hexVal h3 with
        | none => simp only [hx1, hx2, hx3] at h; cases h
        | some c =>
          cases hx4 : hexVal h4 with
          | none => simp only [hx1, hx2, hx3, hx4] at h; cases h
          | some d => exact absurd (hm a b c d hx1 hx2 hx3 hx4) (fun x => x)
  | case5 e rest hne c hm ih =>
    intro cs rest' h
    rw [parseStr] at h
    simp only [hm] at h
    rw [Option.map_eq_some'] at h
    obtain ⟨p, hp, hf⟩ := h
    obtain ⟨hc, hr⟩ := Prod.mk.injEq .. ▸ hf
    obtain ⟨body', hbne, hb, hrep⟩ := ih p.1 p.2 (by rw [hp])
    subst hc; subst hr
    have heu : e ≠ 'u' := by
      intro he
      rw [he] at hm
      rw [escChar] at hm
      simp at hm
    refine ⟨'\\' :: e :: body', by simp, ?_, ?_⟩
    · rw [hb]; rfl
    · intro t
      rw [List.cons_append, List.cons_append, parseStr.eq_def]
      split
      · next heq => cases heq
      · next heq => cases heq
      · next h1' h2' h3' h4' rest'' heq =>
        injection heq with ha hb'
        injection hb' with hb' _
        exact (heu hb').elim
      · next e' rest'' hne' heq =>
        injection heq with _ hb'
        injection hb' with hb1 hb2
        subst hb1; subst hb2
        simp only [hm, hrep t]
        rfl
      · next c' rest'' hx1 hx2 hx3 heq =>
        injection heq with ha hb'
        exact (hx3 e (body' ++ t) ha.symm hb'.symm).elim
    exact hne
  | case6 e rest hne hm =>
    intro cs rest' h
    rw [parseStr] at h
    · simp only [hm] at h
      cases h
    · exact hne
  | case7 c rest hn1 hn2 hn3 hlt =>
    intro cs rest' h
    rw [parseStr] at h
    · rw [if_pos hlt] at h
      cases h
    · exact hn1
    · exact hn2
    · exact hn3
  | case8 c rest hn1 hn2 hn3 hge ih =>
    intro cs rest' h
    rw [parseStr] at h
    rw [if_neg hge, Option.map_eq_some'] at h
    obtain ⟨p, hp, hf⟩ := h
    obtain ⟨hc, hr⟩ := Prod.mk.injEq .. ▸ hf
    obtain ⟨body', hbne, hb, hrep⟩ := ih p.1 p.2 (by rw [hp])
    subst hc; subst hr
    have hrest : ∃ r0 rs, rest = r0 :: rs := by
      cases hrr : rest with
      | nil =>
        rw [hrr] at hb
        exact absurd hb (by
          cases body' with
          | nil => exact absurd rfl hbne
          | cons b bs => simp)
      | cons r0 rs => exact ⟨r0, rs, rfl⟩
    obtain ⟨r0, rs, hr0⟩ := hrest
    have hcq : c ≠ '"' := hn1
    have hcb : c ≠ '\\' := fun hcb => hn3 r0 rs hcb hr0
    refine ⟨c :: body', by simp, ?_, ?_⟩
    · rw [hb]; rfl
    · intro t
      rw [List.cons_append, parseStr.eq_def]
      split
      · next heq => cases heq
      · next heq =>
        injection heq with ha _
        exact absurd ha hcq
      · next h1' h2' h3' h4' rest'' heq =>
        injection heq with ha _
        exact absurd ha hcb
      · next e' rest'' hne' heq =>
        injection heq with ha _
        exact absurd ha hcb
      · next c' rest'' hx1 hx2 hx3 heq =>
        injection heq with ha hb'
        subst ha; subst hb'
        rw [if_neg hge, hrep t]
        rfl
    exact hn1
    exact hn2
    exact hn3

/-- The rest of a string scan is a strictly shorter suffix of the input. -/
theorem parseStr_suffix (s cs rest : List Char)
    (h : parseStr s = some (cs, rest)) :
    rest <:+ s ∧ rest.length < s.length := by
  obtain ⟨body, hbne, hb, _⟩ := parseStr_replay s cs rest h
  refine ⟨hb ▸ List.suffix_append body rest, ?_⟩
  rw [hb, List.length_append]
  cases body with
  | nil => exact absurd rfl hbne
  | cons b bs => simp

/-- Removing an untouched suffix from a successful string scan. -/
theorem parseStr_trim (x r cs y : List Char)
    (h : parseStr (x ++ r) = some (cs, y ++ r)) : parseStr x = some (cs, y) := by
  obtain ⟨body, hbne, hb, hrep⟩ := parseStr_replay (x ++ r) cs (y ++ r) h
  have hx : x = body ++ y := by
    have h2 : x ++ r = (body ++ y) ++ r := by rw [hb, List.append_assoc]
    exact List.append_cancel_right h2
  rw [hx, hrep y]

/-- A successful integer-part scan consumes exactly its nonempty lexeme. -/
theorem parseIntPart_eq (s ip r : List Char)
    (h : parseIntPart s = some (ip, r)) : ip ≠ [] ∧ s = ip ++ r := by
  rw [parseIntPart.eq_def] at h
  split at h
  · next rest =>
    injection h with h
    obtain ⟨h1, h2⟩ := Prod.mk.injEq .. ▸ h
    subst h1; subst h2
    exact ⟨by simp, rfl⟩
  · next c rest hne =>
    split at h
    · injection h with h
      obtain ⟨h1, h2⟩ := Prod.mk.injEq .. ▸ h
      subst h1; subst h2
      refine ⟨by simp, ?_⟩
      rw [List.cons_append, List.takeWhile_append_dropWhile]
    · cases h
  · cases h

/-- The fraction scanner consumes exactly what it returns. -/
theorem parseFrac_eq (s : List Char) : s = (parseFrac s).1 ++ (parseFrac s).2 := by
  rw [parseFrac.eq_def]
  split
  · next rest =>
    split
    · rfl
    · rw [List.cons_append, List.takeWhile_append_dropWhile]
  · rfl

/-- The exponent scanner consumes exactly what it returns. -/
theorem parseExp_eq (s : List Char) : s = (parseExp s).1 ++ (parseExp s).2 := by
  rw [parseExp.eq_def]
  split
  · next e sg rest =>
    split
    · split
      · split
        · rfl
        · rw [List.cons_append, List.cons_append, List.takeWhile_append_dropWhile]
      · split
        · rfl
        · rw [List.cons_append, List.takeWhile_append_dropWhile]
    · rfl
  · rfl

/-- A successful number-lexeme scan consumes exactly its nonempty lexeme. -/
theorem parseNumCore_eq (s lex r : List Char)
    (h : parseNumCore s = some (lex, r)) : lex ≠ [] ∧ s = lex ++ r := by
  rw [parseNumCore] at h
  cases hip : parseIntPart s with
  | none => rw [hip] at h; cases h
  | some p =>
    rw [hip] at h
    injection h with h
    obtain ⟨h1, h2⟩ := Prod.mk.injEq .. ▸ h
    obtain ⟨hipne, hips⟩ := parseIntPart_eq s p.1 p.2 (by rw [hip])
    constructor
    · intro hx
      rw [← h1] at hx
      exact hipne (List.append_eq_nil.mp (List.append_eq_nil.mp hx).1).1
    · rw [hips, ← h1, ← h2]
      have hf := parseFrac_eq p.2
      have he := parseExp_eq (parseFrac p.2).2
      calc p.1 ++ p.2
          = p.1 ++ ((parseFrac p.2).1 ++ (parseFrac p.2).2) := by rw [← hf]
        _ = p.1 ++ ((parseFrac p.2).1 ++
              ((parseExp (parseFrac p.2).2).1 ++ (parseExp (parseFrac p.2).2).2)) := by
              rw [← he]
        _ = p.1 ++ (parseFrac p.2).1 ++ (parseExp (parseFrac p.2).2).1 ++
              (parseExp (parseFrac p.2).2).2 := by simp [List.append_assoc]

/-- The rest of a number scan is a strictly shorter suffix of the input. -/
theorem parseNum_suffix (s : List Char) (j : Json) (rest : List Char)
    (h : parseNum s = some (j, rest)) :
    rest <:+ s ∧ rest.length < s.length := by
  rw [parseNum.eq_def] at h
  split at h
  · next rest' =>
    rw [Option.map_eq_some'] at h
    obtain ⟨p, hp, hf⟩ := h
    obtain ⟨h1, h2⟩ := Prod.mk.injEq .. ▸ hf
    obtain ⟨hne, hs⟩ := parseNumCore_eq rest' p.1 p.2 hp
    subst h2
    constructor
    · rw [hs]
      exact (List.suffix_append p.1 p.2).trans (List.suffix_cons _ _)
    · rw [hs, List.length_cons, List.length_append]
      cases hp1 : p.1 with
      | nil => exact absurd hp1 hne
      | cons a as => simp only [List.length_cons]; omega
  · next hnm =>
    rw [Option.map_eq_some'] at h
    obtain ⟨p, hp, hf⟩ := h
    obtain ⟨h1, h2⟩ := Prod.mk.injEq .. ▸ hf
    obtain ⟨hne, hs⟩ := parseNumCore_eq s p.1 p.2 hp
    subst h2
    constructor
    · rw [hs]; exact List.suffix_append p.1 p.2
    · rw [hs, List.length_append]
      cases hp1 : p.1 with
      | nil => exact absurd hp1 hne
      | cons a as => simp only [List.length_cons]; omega

/-- Splitting `takeWhile`/`dropWhile` over an append when the prefix is not
consumed entirely. -/
theorem tdw_append_pos {α : Type} (p : α → Bool) (l r : List α)
    (h : l.dropWhile p ≠ []) :
    (l ++ r).dropWhile p = l.dropWhile p ++ r ∧
      (l ++ r).takeWhile p = l.takeWhile p := by
  constructor
  · rw [List.dropWhile_append, if_neg (fun hh => h (List.isEmpty_iff.mp hh))]
  · rw [List.takeWhile_append]
    rw [if_neg]
    intro hl
    apply h
    have := List.takeWhile_append_dropWhile p l
    have hlen := congrArg List.length this
    rw [List.length_append, hl] at hlen
    have : (l.dropWhile p).length = 0 := by omega
    exact List.length_eq_zero.mp this

/-- Splitting `takeWhile`/`dropWhile` over an append when the prefix is
consumed entirely. -/
theorem tdw_append_nil {α : Type} (p : α → Bool) (l r : List α)
    (h : l.dropWhile p = []) :
    (l ++ r).dropWhile p = r.dropWhile p ∧
      (l ++ r).takeWhile p = l ++ r.takeWhile p := by
  have htl : l.takeWhile p = l := by
    have := List.takeWhile_append_dropWhile p l
    rw [h, List.append_nil] at this
    exact this
  constructor
  · rw [List.dropWhile_append, if_pos (List.isEmpty_iff.mpr h)]
  · rw [List.takeWhile_append, if_pos (by rw [htl])]

/-- If `dropWhile` keeps the whole list, `takeWhile` takes nothing. -/
theorem takeWhile_nil_of_dropWhile_self {α : Type} (p : α → Bool)
    (r : List α) (h : r.dropWhile p = r) : r.takeWhile p = [] := by
  have := List.takeWhile_append_dropWhile p r
  rw [h] at this
  have : r.takeWhile p ++ r = [] ++ r := by rw [this]; rfl
  exact List.append_cancel_right this

/-- Unfolding `parseIntPart` on a nonzero digit. -/
theorem parseIntPart_digit {c : Char} (hc : ¬c = '0') (hd : c.isDigit = true)
    (rest : List Char) :
    parseIntPart (c :: rest) =
      some (c :: rest.takeWhile Char.isDigit, rest.dropWhile Char.isDigit) := by
  rw [parseIntPart.eq_def]
  split
  · next rest' heq =>
    injection heq with ha _
    exact absurd ha hc
  · next c' rest' hne heq =>
    injection heq with ha hb
    subst ha; subst hb
    rw [if_pos hd]
  · next heq => cases heq

/-- Removing an untouched suffix from a successful integer-part scan. -/
theorem parseIntPart_trim (x r ip y : List Char)
    (h : parseIntPart (x ++ r) = some (ip, y ++ r)) :
    parseIntPart x = some (ip, y) := by
  cases x with
  | nil =>
    obtain ⟨hne, hs⟩ := parseIntPart_eq r ip (y ++ r) (by simpa using h)
    have hlen := congrArg List.length hs
    simp only [List.length_append] at hlen
    have : 0 < ip.length := List.length_pos.mpr hne
    omega
  | cons c x' =>
    rw [List.cons_append, parseIntPart.eq_def] at h
    split at h
    · next rest' heq =>
      injection heq with ha hb
      subst ha
      injection h with h
      obtain ⟨h1, h2⟩ := Prod.mk.injEq .. ▸ h
      subst h1
      have hxy : y ++ r = x' ++ r := by rw [← h2, ← hb]
      have hy : y = x' := List.append_cancel_right hxy
      subst hy
      rfl
    · next c' rest' hne heq =>
      injection heq with ha hb
      subst ha; subst hb
      split at h
      · next hd =>
        injection h with h
        obtain ⟨h1, h2⟩ := Prod.mk.injEq .. ▸ h
        by_cases hdw : x'.dropWhile Char.isDigit = []
        · obtain ⟨hd1, ht1⟩ := tdw_append_nil Char.isDigit x' r hdw
          rw [hd1] at h2
          have hyr : (y ++ r).length ≤ r.length := by
            rw [← h2]
            exact (List.dropWhile_suffix _).length_le
          rw [List.length_append] at hyr
          have hy : y = [] := List.length_eq_zero.mp (by omega)
          subst hy
          have hdr : r.dropWhile Char.isDigit = r := by
            rw [h2]; rfl
          have htr : r.takeWhile Char.isDigit = [] :=
            takeWhile_nil_of_dropWhile_self _ r hdr
          rw [ht1, htr, List.append_nil] at h1
          rw [parseIntPart_digit hne hd x']
          have htx : x'.takeWhile Char.isDigit = x' := by
            have := List.takeWhile_append_dropWhile Char.isDigit x'
            rw [hdw, List.append_nil] at this
            exact this
          rw [htx, hdw, ← h1]
        · obtain ⟨hd1, ht1⟩ := tdw_append_pos Char.isDigit x' r hdw
          rw [hd1] at h2
          have hy : y = x'.dropWhile Char.isDigit :=
            List.append_cancel_right h2.symm
          rw [parseIntPart_digit hne hd x', ← h1, ht1, hy]
      · cases h
    · next heq => cases heq

/-- A `takeWhile` that takes nothing from an append takes nothing from the
prefix. -/
theorem takeWhile_append_nil_left {α : Type} (p : α → Bool) (x r : List α)
    (h : (x ++ r).takeWhile p = []) : x.takeWhile p = [] := by
  cases x with
  | nil => rfl
  | cons c x'' =>
    rw [List.cons_append, List.takeWhile_cons] at h
    rw [List.takeWhile_cons]
    by_cases hp : p c = true
    · rw [if_pos hp] at h; cases h
    · rw [if_neg hp]

/-- An equation `u = y ++ r` with `u` no longer than `r` forces `y = []`. -/
theorem append_eq_of_le {α : Type} {y r u : List α} (h : u = y ++ r)
    (hle : u.length ≤ r.length) : y = [] ∧ u = r := by
  have hlen := congrArg List.length h
  rw [List.length_append] at hlen
  have hy : y = [] := List.length_eq_zero.mp (by omega)
  subst hy
  exact ⟨rfl, by rw [h]; rfl⟩

/-- Unfolding `parseFrac` away from a dot. -/
theorem parseFrac_other {c : Char} (hc : ¬c = '.') (rest : List Char) :
    parseFrac (c :: rest) = ([], c :: rest) := by
  rw [parseFrac.eq_def]
  split
  · next rest' heq =>
    injection heq with ha _
    exact absurd ha hc
  · rfl

/-- Removing an untouched suffix from a fraction scan. -/
theorem parseFrac_trim (x r fp y : List Char)
    (h : parseFrac (x ++ r) = (fp, y ++ r)) : parseFrac x = (fp, y) := by
  cases x with
  | nil =>
    rw [List.nil_append] at h
    have hs := parseFrac_eq r
    rw [h] at hs
    have hs' : r = fp ++ (y ++ r) := hs
    have hlen := congrArg List.length hs'
    rw [List.length_append, List.length_append] at hlen
    have hfp : fp = [] := List.length_eq_zero.mp (by omega)
    have hy : y = [] := List.length_eq_zero.mp (by omega)
    subst hfp; subst hy
    rfl
  | cons c x' =>
    by_cases hc : c = '.'
    · subst hc
      rw [List.cons_append, parseFrac] at h
      split at h
      · next hemp =>
        obtain ⟨h1, h2⟩ := Prod.mk.injEq .. ▸ h
        subst h1
        have hxy : ('.' :: x') ++ r = y ++ r := by
          rw [List.cons_append]; exact h2
        have hy : y = '.' :: x' := (List.append_cancel_right hxy).symm
        subst hy
        rw [parseFrac]
        rw [if_pos (List.isEmpty_iff.mpr
          (takeWhile_append_nil_left _ x' r (List.isEmpty_iff.mp hemp)))]
      · next hemp =>
        obtain ⟨h1, h2⟩ := Prod.mk.injEq .. ▸ h
        by_cases hdw : x'.dropWhile Char.isDigit = []
        · obtain ⟨hd1, ht1⟩ := tdw_append_nil Char.isDigit x' r hdw
          rw [hd1] at h2
          obtain ⟨hy, hdr⟩ := append_eq_of_le h2
            (List.dropWhile_suffix _).length_le
          subst hy
          have htr : r.takeWhile Char.isDigit = [] :=
            takeWhile_nil_of_dropWhile_self _ r hdr
          rw [ht1, htr, List.append_nil] at h1
          have htx : x'.takeWhile Char.isDigit = x' := by
            have := List.takeWhile_append_dropWhile Char.isDigit x'
            rw [hdw, List.append_nil] at this
            exact this
          have hx'ne : ¬x' = [] := by
            intro hx
            subst hx
            rw [ht1, htr] at hemp
            simp at hemp
          rw [parseFrac]
          rw [if_neg (fun hh => hx'ne (by
            have := List.isEmpty_iff.mp hh
            rw [htx] at this
            exact this))]
          rw [htx, hdw, ← h1]
        · obtain ⟨hd1, ht1⟩ := tdw_append_pos Char.isDigit x' r hdw
          rw [hd1] at h2
          have hy : y = x'.dropWhile Char.isDigit :=
            List.append_cancel_right h2.symm
          have htne : ¬(x'.takeWhile Char.isDigit).isEmpty = true := by
            intro hh
            apply hemp
            rw [ht1]
            exact hh
          rw [parseFrac, if_neg htne, ← h1, ht1, hy]
    · rw [List.cons_append, parseFrac_other hc] at h
      obtain ⟨h1, h2⟩ := Prod.mk.injEq .. ▸ h
      subst h1
      have hxy : (c :: x') ++ r = y ++ r := by
        rw [List.cons_append]; exact h2
      have hy : y = c :: x' := (List.append_cancel_right hxy).symm
      subst hy
      exact parseFrac_other hc x'

/-- Removing an untouched suffix from an exponent scan. -/
theorem parseExp_trim (x r ep y : List Char)
    (h : parseExp (x ++ r) = (ep, y ++ r)) : parseExp x = (ep, y) := by
  cases x with
  | nil =>
    rw [List.nil_append] at h
    have hs := parseExp_eq r
    rw [h] at hs
    have hs' : r = ep ++ (y ++ r) := hs
    have hlen := congrArg List.length hs'
    rw [List.length_append, List.length_append] at hlen
    have hep : ep = [] := List.length_eq_zero.mp (by omega)
    have hy : y = [] := List.length_eq_zero.mp (by omega)
    subst hep; subst hy
    rfl
  | cons e x1 =>
    cases x1 with
    | nil =>
      cases r with
      | nil =>
        have h' : parseExp [e] = (ep, y) := by
          rw [← List.append_nil y]
          rw [show ([e] ++ ([] : List Char)) = [e] from by simp] at h
          exact h
        rw [parseExp.eq_def] at h' ⊢
        exact h'
      | cons sg rest' =>
        rw [show ([e] ++ (sg :: rest')) = e :: sg :: rest' from rfl,
          parseExp] at h
        by_cases he : e = 'e' ∨ e = 'E'
        · rw [if_pos he] at h
          by_cases hsg : sg = '+' ∨ sg = '-'
          · rw [if_pos hsg] at h
            split at h
            · obtain ⟨h1, h2⟩ := Prod.mk.injEq .. ▸ h
              subst h1
              have hy : y = [e] := by
                have h2' : [e] ++ (sg :: rest') = y ++ (sg :: rest') := h2
                exact (List.append_cancel_right h2').symm
              subst hy
              rfl
            · obtain ⟨h1, h2⟩ := Prod.mk.injEq .. ▸ h
              have hle : (rest'.dropWhile Char.isDigit).length ≤ rest'.length :=
                (List.dropWhile_suffix _).length_le
              have hlen := congrArg List.length h2
              rw [List.length_append] at hlen
              simp only [List.length_cons] at hlen hle
              omega
          · rw [if_neg hsg] at h
            split at h
            · obtain ⟨h1, h2⟩ := Prod.mk.injEq .. ▸ h
              subst h1
              have hy : y = [e] := by
                have h2' : [e] ++ (sg :: rest') = y ++ (sg :: rest') := h2
                exact (List.append_cancel_right h2').symm
              subst hy
              rfl
            · next hemp =>
              obtain ⟨h1, h2⟩ := Prod.mk.injEq .. ▸ h
              have htw := congrArg List.length
                (List.takeWhile_append_dropWhile Char.isDigit (sg :: rest'))
              rw [List.length_append] at htw
              have htwpos : 0 < ((sg :: rest').takeWhile Char.isDigit).length :=
                List.length_pos.mpr
                  (fun hnil => hemp (List.isEmpty_iff.mpr hnil))
              have hlen := congrArg List.length h2
              rw [List.length_append] at hlen
              simp only [List.length_cons] at hlen htw
              omega
        · rw [if_neg he] at h
          obtain ⟨h1, h2⟩ := Prod.mk.injEq .. ▸ h
          subst h1
          have hy : y = [e] := by
            have h2' : [e] ++ (sg :: rest') = y ++ (sg :: rest') := h2
            exact (List.append_cancel_right h2').symm
          subst hy
          rfl
    | cons sg x2 =>
      rw [List.cons_append, List.cons_append, parseExp] at h
      by_cases he : e = 'e' ∨ e = 'E'
      · rw [if_pos he] at h
        by_cases hsg : sg = '+' ∨ sg = '-'
        · rw [if_pos hsg] at h
          split at h
          · next hemp =>
            obtain ⟨h1, h2⟩ := Prod.mk.injEq .. ▸ h
            subst h1
            have hxy : (e :: sg :: x2) ++ r = y ++ r := by
              rw [List.cons_append, List.cons_append]; exact h2
            have hy : y = e :: sg :: x2 := (List.append_cancel_right hxy).symm
            subst hy
            rw [parseExp, if_pos he, if_pos hsg,
              if_pos (List.isEmpty_iff.mpr (takeWhile_append_nil_left _ x2 r
                (List.isEmpty_iff.mp hemp)))]
          · next hemp =>
            obtain ⟨h1, h2⟩ := Prod.mk.injEq .. ▸ h
            by_cases hdw : x2.dropWhile Char.isDigit = []
            · obtain ⟨hd1, ht1⟩ := tdw_append_nil Char.isDigit x2 r hdw
              rw [hd1] at h2
              obtain ⟨hy, hdr⟩ := append_eq_of_le h2
                (List.dropWhile_suffix _).length_le
              subst hy
              have htr : r.takeWhile Char.isDigit = [] :=
                takeWhile_nil_of_dropWhile_self _ r hdr
              rw [ht1, htr, List.append_nil] at h1
              have htx : x2.takeWhile Char.isDigit = x2 := by
                have := List.takeWhile_append_dropWhile Char.isDigit x2
                rw [hdw, List.append_nil] at this
                exact this
              have hx2ne : ¬x2 = [] := by
                intro hx
                subst hx
                rw [ht1, htr] at hemp
                simp at hemp
              rw [parseExp, if_pos he, if_pos hsg,
                if_neg (fun hh => hx2ne (by
                  have := List.isEmpty_iff.mp hh
                  rw [htx] at this
                  exact this)),
                htx, hdw, ← h1]
            · obtain ⟨hd1, ht1⟩ := tdw_append_pos Char.isDigit x2 r hdw
              rw [hd1] at h2
              have hy : y = x2.dropWhile Char.isDigit :=
                List.append_cancel_right h2.symm
              have htne : ¬(x2.takeWhile Char.isDigit).isEmpty = true := by
                intro hh
                apply hemp
                rw [ht1]
                exact hh
              rw [parseExp, if_pos he, if_pos hsg, if_neg htne, ← h1, ht1, hy]
        · rw [if_neg hsg] at h
          have hsx : sg :: (x2 ++ r) = (sg :: x2) ++ r := rfl
          rw [hsx] at h
          split at h
          · next hemp =>
            obtain ⟨h1, h2⟩ := Prod.mk.injEq .. ▸ h
            subst h1
            have hxy : (e :: sg :: x2) ++ r = y ++ r := by
              rw [List.cons_append, List.cons_append]; exact h2
            have hy : y = e :: sg :: x2 := (List.append_cancel_right hxy).symm
            subst hy
            rw [parseExp, if_pos he, if_neg hsg,
              if_pos (List.isEmpty_iff.mpr (takeWhile_append_nil_left _
                (sg :: x2) r (List.isEmpty_iff.mp hemp)))]
          · next hemp =>
            obtain ⟨h1, h2⟩ := Prod.mk.injEq .. ▸ h
            by_cases hdw : (sg :: x2).dropWhile Char.isDigit = []
            · obtain ⟨hd1, ht1⟩ := tdw_append_nil Char.isDigit (sg :: x2) r hdw
              rw [hd1] at h2
              obtain ⟨hy, hdr⟩ := append_eq_of_le h2
                (List.dropWhile_suffix _).length_le
              subst hy
              have htr : r.takeWhile Char.isDigit = [] :=
                takeWhile_nil_of_dropWhile_self _ r hdr
              rw [ht1, htr, List.append_nil] at h1
              have htx : (sg :: x2).takeWhile Char.isDigit = sg :: x2 := by
                have := List.takeWhile_append_dropWhile Char.isDigit (sg :: x2)
                rw [hdw, List.append_nil] at this
                exact this
              rw [parseExp, if_pos he, if_neg hsg,
                if_neg (fun hh => (List.cons_ne_nil sg x2 (by
                  have := List.isEmpty_iff.mp hh
                  rw [htx] at this
                  exact this)).elim),
                htx, hdw, ← h1]
            · obtain ⟨hd1, ht1⟩ := tdw_append_pos Char.isDigit (sg :: x2) r hdw
              rw [hd1] at h2
              have hy : y = (sg :: x2).dropWhile Char.isDigit :=
                List.append_cancel_right h2.symm
              have htne : ¬((sg :: x2).takeWhile Char.isDigit).isEmpty = true := by
                intro hh
                apply hemp
                rw [ht1]
                exact hh
              rw [parseExp, if_pos he, if_neg hsg, if_neg htne, ← h1, ht1, hy]
      · rw [if_neg he] at h
        obtain ⟨h1, h2⟩ := Prod.mk.injEq .. ▸ h
        subst h1
        have hxy : (e :: sg :: x2) ++ r = y ++ r := by
          rw [List.cons_append, List.cons_append]; exact h2
        have hy : y = e :: sg :: x2 := (List.append_cancel_right hxy).symm
        subst hy
        rw [parseExp, if_neg he]

/-- The exponent scanner only consumes a prefix. -/
theorem parseExp_suffix (F : List Char) : (parseExp F).2 <:+ F := by
  conv_rhs => rw [parseExp_eq F]
  exact List.suffix_append _ _

/-- The fraction scanner only consumes a prefix. -/
theorem parseFrac_suffix (F : List Char) : (parseFrac F).2 <:+ F := by
  conv_rhs => rw [parseFrac_eq F]
  exact List.suffix_append _ _

/-- Removing an untouched suffix from a number-lexeme scan. -/
theorem parseNumCore_trim (x r lex y : List Char)
    (h : parseNumCore (x ++ r) = some (lex, y ++ r)) :
    parseNumCore x = some (lex, y) := by
  rw [parseNumCore] at h
  cases hip : parseIntPart (x ++ r) with
  | none => rw [hip] at h; cases h
  | some p =>
    rw [hip] at h
    injection h with h
    obtain ⟨h1, h2⟩ := Prod.mk.injEq .. ▸ h
    have hyr : y ++ r <:+ (parseFrac p.2).2 := by
      rw [← h2]
      exact parseExp_suffix _
    have hsufE : r <:+ (parseFrac p.2).2 := (List.suffix_append y r).trans hyr
    have hsufI : r <:+ p.2 := hsufE.trans (parseFrac_suffix p.2)
    obtain ⟨z2, hz2⟩ := hsufE
    obtain ⟨z1, hz1⟩ := hsufI
    have hipx : parseIntPart x = some (p.1, z1) :=
      parseIntPart_trim x r p.1 z1 (by rw [hip, hz1])
    have hfrx : parseFrac z1 = ((parseFrac p.2).1, z2) :=
      parseFrac_trim z1 r (parseFrac p.2).1 z2 (by rw [hz1, hz2])
    have hexx : parseExp z2 = ((parseExp (parseFrac p.2).2).1, y) :=
      parseExp_trim z2 r (parseExp (parseFrac p.2).2).1 y (by
        rw [hz2, ← h2])
    rw [parseNumCore, hipx]
    show some (p.1 ++ (parseFrac z1).1 ++ (parseExp (parseFrac z1).2).1,
      (parseExp (parseFrac z1).2).2) = some (lex, y)
    rw [hfrx]
    show some (p.1 ++ (parseFrac p.2).1 ++ (parseExp z2).1,
      (parseExp z2).2) = some (lex, y)
    rw [hexx, ← h1]

/-- Removing an untouched suffix from a number scan. -/
theorem parseNum_trim (x r : List Char) (j : Json) (y : List Char)
    (h : parseNum (x ++ r) = some (j, y ++ r)) : parseNum x = some (j, y) := by
  cases x with
  | nil =>
    rw [List.nil_append] at h
    obtain ⟨_, hlt⟩ := parseNum_suffix r j (y ++ r) h
    rw [List.length_append] at hlt
    omega
  | cons c x' =>
    rw [List.cons_append, parseNum.eq_def] at h
    split at h
    · next rest' heq =>
      injection heq with ha hb
      subst ha
      rw [Option.map_eq_some'] at h
      obtain ⟨p, hp, hf⟩ := h
      obtain ⟨hf1, hf2⟩ := Prod.mk.injEq .. ▸ hf
      rw [← hb] at hp
      have hx := parseNumCore_trim x' r p.1 y (by rw [hp, ← hf2])
      rw [parseNum.eq_def]
      split
      · next rest'' heq' =>
        injection heq' with _ hb'
        subst hb'
        rw [hx]
        show some (Json.num (String.mk ('-' :: p.1)), y) = some (j, y)
        rw [hf1]
      · next hne' => exact (hne' x' rfl).elim
    · next hne =>
      rw [Option.map_eq_some'] at h
      obtain ⟨p, hp, hf⟩ := h
      obtain ⟨hf1, hf2⟩ := Prod.mk.injEq .. ▸ hf
      have hx := parseNumCore_trim (c :: x') r p.1 y (by
        rw [List.cons_append, hp, ← hf2])
      rw [parseNum.eq_def]
      split
      · next rest'' heq' =>
        injection heq' with ha _
        exact (hne (x' ++ r) (by rw [ha])).elim
      · rw [hx]
        show some (Json.num (String.mk p.1), y) = some (j, y)
        rw [hf1]

/-- Unfolding: out of fuel. -/
theorem parseP_zero (m : PMode) (s : List Char) : parseP 0 m s = none := rfl

/-- Unfolding: value starting with `{`. -/
theorem parseP_val_brace (n : Nat) (cs : List Char) :
    parseP (n + 1) .val ('{' :: cs) =
      (match skipWs cs with
       | '}' :: r => some (.obj [], r)
       | u => parseP n (.members []) u) := rfl

/-- Unfolding: value starting with `[`. -/
theorem parseP_val_brack (n : Nat) (cs : List Char) :
    parseP (n + 1) .val ('[' :: cs) =
      (match skipWs cs with
       | ']' :: r => some (.arr [], r)
       | u =>
         match parseP n .val u with
         | none => none
         | some (v, r) => parseP n (.elems [v]) r) := rfl

/-- Unfolding: value starting with `"`. -/
theorem parseP_val_quote (n : Nat) (cs : List Char) :
    parseP (n + 1) .val ('"' :: cs) =
      (parseStr cs).map (fun p => (Json.str (String.mk p.1), p.2)) := rfl

/-- Unfolding: value starting with any other character — the constant
literals, then a number. -/
theorem parseP_val_other (n : Nat) (c : Char) (cs : List Char)
    (h1 : ¬c = '{') (h2 : ¬c = '[') (h3 : ¬c = '"') :
    parseP (n + 1) .val (c :: cs) =
      (match stripLit ['t', 'r', 'u', 'e'] (c :: cs) with
       | some r => some (.bool true, r)
       | none =>
       match stripLit ['f', 'a', 'l', 's', 'e'] (c :: cs) with
       | some r => some (.bool false, r)
       | none =>
       match stripLit ['n', 'u', 'l', 'l'] (c :: cs) with
       | some r => some (.null, r)
       | none =>
       match stripLit ['N', 'a', 'N'] (c :: cs) with
       | some r => some (.num "NaN", r)
       | none =>
       match stripLit ['I', 'n', 'f', 'i', 'n', 'i', 't', 'y'] (c :: cs) with
       | some r => some (.num "Infinity", r)
       | none =>
       match stripLit ['-', 'I', 'n', 'f', 'i', 'n', 'i', 't', 'y'] (c :: cs) with
       | some r => some (.num "-Infinity", r)
       | none => parseNum (c :: cs)) := by
  rw [parseP.eq_def]
  split
  · next heq => exact absurd heq (by omega)
  · split
    · next heq => cases heq
    · next cs' heq =>
      injection heq with ha _
      exact absurd ha h1
    · next cs' heq =>
      injection heq with ha _
      exact absurd ha h2
    · next cs' heq =>
      injection heq with ha _
      exact absurd ha h3
    · rfl
  · next heqm => exact absurd heqm (by simp)
  · next heqm => exact absurd heqm (by simp)

/-- Unfolding: object members cannot start at end of input. -/
theorem parseP_members_nil (n : Nat) (acc : List (String × Json)) :
    parseP (n + 1) (.members acc) [] = none := rfl

/-- Unfolding: object members starting at a key. -/
theorem parseP_members_quote (n : Nat) (acc : List (String × Json))
    (cs : List Char) :
    parseP (n + 1) (.members acc) ('"' :: cs) =
      (match parseStr cs with
       | none => none
       | some (key, s1) =>
         match skipWs s1 with
         | ':' :: s2 =>
           (match parseP n .val (skipWs s2) with
            | none => none
            | some (v, s3) =>
              match skipWs s3 with
              | ',' :: s4 =>
                  parseP n (.members (insertKey acc (String.mk key) v)) (skipWs s4)
              | '}' :: s4 => some (.obj (insertKey acc (String.mk key) v), s4)
              | _ => none)
         | _ => none) := rfl

/-- Unfolding: object members must start with a quote. -/
theorem parseP_members_other (n : Nat) (acc : List (String × Json))
    (c : Char) (cs : List Char) (h : ¬c = '"') :
    parseP (n + 1) (.members acc) (c :: cs) = none := by
  rw [parseP.eq_def]
  split
  · rfl
  · next heqm => exact absurd heqm (by simp)
  · next n' acc' heqn heqm =>
    split
    · next cs' heq =>
      injection heq with ha _
      exact absurd ha h
    · rfl
  · next heqm => exact absurd heqm (by simp)

/-- Unfolding: array continuation. -/
theorem parseP_elems (n : Nat) (acc : List Json) (s : List Char) :
    parseP (n + 1) (.elems acc) s =
      (match skipWs s with
       | ',' :: s2 =>
         (match parseP n .val (skipWs s2) with
          | none => none
          | some (v, r) => parseP n (.elems (acc ++ [v])) r)
       | ']' :: s2 => some (.arr acc, s2)
       | _ => none) := rfl

/-- The rest of any successful parse is a strictly shorter suffix of its
input: every parser branch consumes at least one character. -/
theorem parseP_suffix : ∀ fuel m s v rest, parseP fuel m s = some (v, rest) →
    rest <:+ s ∧ rest.length < s.length := by
  intro fuel
  induction fuel with
  | zero => intro m s v rest h; rw [parseP_zero] at h; cases h
  | succ fuel ih =>
    intro m s v rest h
    cases m with
    | val =>
      cases s with
      | nil => rw [parseP_val_nil] at h; cases h
      | cons c cs =>
        by_cases hc1 : c = '{'
        · subst hc1
          rw [parseP_val_brace] at h
          split at h
          · next r heq =>
            injection h with h
            obtain ⟨h1, h2⟩ := Prod.mk.injEq .. ▸ h
            subst h2
            have hsk : ('}' :: r) <:+ cs := heq ▸ skipWs_suffix cs
            have hr : r <:+ cs := (List.suffix_cons '}' r).trans hsk
            refine ⟨hr.trans (List.suffix_cons '{' cs), ?_⟩
            have hl1 := hr.length_le
            simp only [List.length_cons]
            omega
          · next hne =>
            obtain ⟨hs, hl⟩ := ih (.members []) (skipWs cs) v rest h
            have hu : skipWs cs <:+ cs := skipWs_suffix cs
            refine ⟨(hs.trans hu).trans (List.suffix_cons '{' cs), ?_⟩
            have hl1 := hu.length_le
            simp only [List.length_cons]
            omega
        · by_cases hc2 : c = '['
          · subst hc2
            rw [parseP_val_brack] at h
            split at h
            · next r heq =>
              injection h with h
              obtain ⟨h1, h2⟩ := Prod.mk.injEq .. ▸ h
              subst h2
              have hsk : (']' :: r) <:+ cs := heq ▸ skipWs_suffix cs
              have hr : r <:+ cs := (List.suffix_cons ']' r).trans hsk
              refine ⟨hr.trans (List.suffix_cons '[' cs), ?_⟩
              have hl1 := hr.length_le
              simp only [List.length_cons]
              omega
            · next hne =>
              split at h
              · cases h
              · next v1 r1 hp =>
                obtain ⟨hs1, hl1⟩ := ih .val (skipWs cs) v1 r1 hp
                obtain ⟨hs2, hl2⟩ := ih (.elems [v1]) r1 v rest h
                have hu : skipWs cs <:+ cs := skipWs_suffix cs
                refine ⟨((hs2.trans hs1).trans hu).trans
                  (List.suffix_cons '[' cs), ?_⟩
                have hl3 := hu.length_le
                simp only [List.length_cons]
                omega
          · by_cases hc3 : c = '"'
            · subst hc3
              rw [parseP_val_quote] at h
              rw [Option.map_eq_some'] at h
              obtain ⟨p, hp, hf⟩ := h
              obtain ⟨h1, h2⟩ := Prod.mk.injEq .. ▸ hf
              subst h2
              obtain ⟨hs, hl⟩ := parseStr_suffix cs p.1 p.2 hp
              refine ⟨hs.trans (List.suffix_cons '"' cs), ?_⟩
              simp only [List.length_cons]
              omega
            · rw [parseP_val_other fuel c cs hc1 hc2 hc3] at h
              split at h
              · next r heq =>
                injection h with h
                obtain ⟨h1, h2⟩ := Prod.mk.injEq .. ▸ h
                subst h2
                rw [stripLit_eq _ _ _ heq]
                exact ⟨List.suffix_append _ _, by simp only [List.length_append, List.length_cons, List.length_nil]; omega⟩
              · split at h
                · next r heq =>
                  injection h with h
                  obtain ⟨h1, h2⟩ := Prod.mk.injEq .. ▸ h
                  subst h2
                  rw [stripLit_eq _ _ _ heq]
                  exact ⟨List.suffix_append _ _, by simp only [List.length_append, List.length_cons, List.length_nil]; omega⟩
                · split at h
                  · next r heq =>
                    injection h with h
                    obtain ⟨h1, h2⟩ := Prod.mk.injEq .. ▸ h
                    subst h2
                    rw [stripLit_eq _ _ _ heq]
                    exact ⟨List.suffix_append _ _, by simp only [List.length_append, List.length_cons, List.length_nil]; omega⟩
                  · split at h
                    · next r heq =>
                      injection h with h
                      obtain ⟨h1, h2⟩ := Prod.mk.injEq .. ▸ h
                      subst h2
                      rw [stripLit_eq _ _ _ heq]
                      exact ⟨List.suffix_append _ _, by simp only [List.length_append, List.length_cons, List.length_nil]; omega⟩
                    · split at h
                      · next r heq =>
                        injection h with h
                        obtain ⟨h1, h2⟩ := Prod.mk.injEq .. ▸ h
                        subst h2
                        rw [stripLit_eq _ _ _ heq]
                        exact ⟨List.suffix_append _ _,
                          by simp only [List.length_append, List.length_cons, List.length_nil]; omega⟩
                      · split at h
                        · next r heq =>
                          injection h with h
                          obtain ⟨h1, h2⟩ := Prod.mk.injEq .. ▸ h
                          subst h2
                          rw [stripLit_eq _ _ _ heq]
                          exact ⟨List.suffix_append _ _,
                            by simp only [List.length_append, List.length_cons, List.length_nil]; omega⟩
                        · exact parseNum_suffix (c :: cs) v rest h
    | members acc =>
      cases s with
      | nil => rw [parseP_members_nil] at h; cases h
      | cons c cs =>
        by_cases hc : c = '"'
        · subst hc
          rw [parseP_members_quote] at h
          split at h
          · cases h
          · next key s1 hkey =>
            split at h
            · next s2 hcol =>
              split at h
              · cases h
              · next v1 s3 hval =>
                obtain ⟨hsv, hlv⟩ := ih .val (skipWs s2) v1 s3 hval
                have hs2 : skipWs s2 <:+ s2 := skipWs_suffix s2
                have hcol2 : (':' :: s2) <:+ s1 := hcol ▸ skipWs_suffix s1
                obtain ⟨hss, hls⟩ := parseStr_suffix cs key s1 hkey
                have hchain : s3 <:+ cs :=
                  (((hsv.trans hs2).trans ((List.suffix_cons ':' s2).trans
                    hcol2)).trans hss)
                have hchl : s3.length < cs.length := by
                  have e1 := hs2.length_le
                  have e2 := hcol2.length_le
                  have e3 := hss.length_le
                  simp only [List.length_cons] at e2
                  omega
                split at h
                · next s4 hcom =>
                  obtain ⟨hsm, hlm⟩ :=
                    ih (.members (insertKey acc (String.mk key) v1))
                      (skipWs s4) v rest h
                  have hs4 : skipWs s4 <:+ s4 := skipWs_suffix s4
                  have hcom2 : (',' :: s4) <:+ s3 := hcom ▸ skipWs_suffix s3
                  have hrc : rest <:+ cs :=
                    ((((hsm.trans hs4).trans ((List.suffix_cons ',' s4).trans
                      hcom2)).trans hchain))
                  refine ⟨hrc.trans (List.suffix_cons '"' cs), ?_⟩
                  have e5 := hrc.length_le
                  simp only [List.length_cons]
                  omega
                · next s4 hbrc =>
                  injection h with h
                  obtain ⟨h1, h2⟩ := Prod.mk.injEq .. ▸ h
                  subst h2
                  have hbrc2 : ('}' :: s4) <:+ s3 := hbrc ▸ skipWs_suffix s3
                  have hrc : s4 <:+ cs :=
                    ((List.suffix_cons '}' s4).trans hbrc2).trans hchain
                  refine ⟨hrc.trans (List.suffix_cons '"' cs), ?_⟩
                  have e5 := hrc.length_le
                  simp only [List.length_cons]
                  omega
                · cases h
            · cases h
        · rw [parseP_members_other fuel acc c cs hc] at h
          cases h
    | elems acc =>
      rw [parseP_elems] at h
      split at h
      · next s2 hcom =>
        split at h
        · cases h
        · next v1 r1 hval =>
          obtain ⟨hsv, hlv⟩ := ih .val (skipWs s2) v1 r1 hval
          obtain ⟨hse, hle⟩ := ih (.elems (acc ++ [v1])) r1 v rest h
          have hs2 : skipWs s2 <:+ s2 := skipWs_suffix s2
          have hcom2 : (',' :: s2) <:+ s := hcom ▸ skipWs_suffix s
          refine ⟨(((hse.trans hsv).trans hs2).trans
            ((List.suffix_cons ',' s2).trans hcom2)), ?_⟩
          have e1 := hcom2.length_le
          have e2 := hs2.length_le
          simp only [List.length_cons] at e1
          omega
      · next s2 hbrk =>
        injection h with h
        obtain ⟨h1, h2⟩ := Prod.mk.injEq .. ▸ h
        subst h2
        have hbrk2 : (']' :: s2) <:+ s := hbrk ▸ skipWs_suffix s
        refine ⟨(List.suffix_cons ']' s2).trans hbrk2, ?_⟩
        have e1 := hbrk2.length_le
        simp only [List.length_cons] at e1
        omega
      · cases h

/-- Fuel monotonicity: a successful parse stays successful with more fuel. -/
theorem parseP_mono : ∀ fuel fuel' m s v rest, fuel ≤ fuel' →
    parseP fuel m s = some (v, rest) → parseP fuel' m s = some (v, rest) := by
  intro fuel
  induction fuel with
  | zero => intro fuel' m s v rest hle h; rw [parseP_zero] at h; cases h
  | succ fuel ih =>
    intro fuel' m s v rest hle h
    cases fuel' with
    | zero => omega
    | succ fuel2 =>
      have hle2 : fuel ≤ fuel2 := by omega
      cases m with
      | val =>
        cases s with
        | nil => rw [parseP_val_nil] at h; cases h
        | cons c cs =>
          by_cases hc1 : c = '{'
          · subst hc1
            rw [parseP_val_brace] at h
            rw [parseP_val_brace]
            split at h
            · exact h
            · exact ih fuel2 _ _ _ _ hle2 h
          · by_cases hc2 : c = '['
            · subst hc2
              rw [parseP_val_brack] at h
              rw [parseP_val_brack]
              split at h
              · exact h
              · split at h
                · cases h
                · next v1 r1 hp =>
                  simp only [ih fuel2 .val _ v1 r1 hle2 hp]
                  exact ih fuel2 _ _ _ _ hle2 h
            · by_cases hc3 : c = '"'
              · subst hc3
                rw [parseP_val_quote] at h
                rw [parseP_val_quote]
                exact h
              · rw [parseP_val_other fuel c cs hc1 hc2 hc3] at h
                rw [parseP_val_other fuel2 c cs hc1 hc2 hc3]
                exact h
      | members acc =>
        cases s with
        | nil => rw [parseP_members_nil] at h; cases h
        | cons c cs =>
          by_cases hc : c = '"'
          · subst hc
            rw [parseP_members_quote] at h
            rw [parseP_members_quote]
            split at h
            · cases h
            · next key s1 hkey =>
              split at h
              · next s2 hcol =>
                split at h
                · cases h
                · next v1 s3 hval =>
                  simp only [ih fuel2 .val _ v1 s3 hle2 hval]
                  split at h
                  · exact ih fuel2 _ _ _ _ hle2 h
                  · exact h
                  · cases h
              · cases h
          · rw [parseP_members_other fuel acc c cs hc] at h
            cases h
      | elems acc =>
        rw [parseP_elems] at h
        rw [parseP_elems]
        split at h
        · split at h
          · cases h
          · next v1 r1 hval =>
            simp only [ih fuel2 .val _ v1 r1 hle2 hval]
            exact ih fuel2 _ _ _ _ hle2 h
        · exact h
        · cases h

/-- Fuel sufficiency: whenever some fuel makes a parse succeed, fuel
`input length + 1` already does. -/
theorem parseP_need : ∀ fuel m s v rest, parseP fuel m s = some (v, rest) →
    parseP (s.length + 1) m s = some (v, rest) := by
  intro fuel
  induction fuel with
  | zero => intro m s v rest h; rw [parseP_zero] at h; cases h
  | succ fuel ih =>
    intro m s v rest h
    cases m with
    | val =>
      cases s with
      | nil => rw [parseP_val_nil] at h; cases h
      | cons c cs =>
        simp only [List.length_cons]
        by_cases hc1 : c = '{'
        · subst hc1
          rw [parseP_val_brace] at h
          rw [parseP_val_brace]
          split at h
          · exact h
          · refine parseP_mono _ _ _ _ _ _ ?_ (ih _ _ _ _ h)
            have := (skipWs_suffix cs).length_le
            omega
        · by_cases hc2 : c = '['
          · subst hc2
            rw [parseP_val_brack] at h
            rw [parseP_val_brack]
            split at h
            · exact h
            · split at h
              · cases h
              · next v1 r1 hp =>
                have hb1 := (skipWs_suffix cs).length_le
                have hp2 : parseP (cs.length + 1) .val (skipWs cs) =
                    some (v1, r1) :=
                  parseP_mono _ _ _ _ _ _ (by omega) (ih _ _ _ _ hp)
                simp only [hp2]
                obtain ⟨hsuf, hlt⟩ := parseP_suffix fuel .val (skipWs cs) v1 r1 hp
                refine parseP_mono _ _ _ _ _ _ ?_ (ih _ _ _ _ h)
                omega
          · by_cases hc3 : c = '"'
            · subst hc3
              rw [parseP_val_quote] at h
              rw [parseP_val_quote]
              exact h
            · rw [parseP_val_other fuel c cs hc1 hc2 hc3] at h
              rw [parseP_val_other (cs.length + 1) c cs hc1 hc2 hc3]
              exact h
    | members acc =>
      cases s with
      | nil => rw [parseP_members_nil] at h; cases h
      | cons c cs =>
        simp only [List.length_cons]
        by_cases hc : c = '"'
        · subst hc
          rw [parseP_members_quote] at h
          rw [parseP_members_quote]
          split at h
          · cases h
          · next key s1 hkey =>
            obtain ⟨hss, hls⟩ := parseStr_suffix cs key s1 hkey
            split at h
            · next s2 hcol =>
              have hcol2 := (hcol ▸ skipWs_suffix s1 :
                (':' :: s2) <:+ s1).length_le
              simp only [List.length_cons] at hcol2
              have hsw2 := (skipWs_suffix s2).length_le
              split at h
              · cases h
              · next v1 s3 hval =>
                obtain ⟨hsuf3, hlt3⟩ :=
                  parseP_suffix fuel .val (skipWs s2) v1 s3 hval
                have hval2 : parseP (cs.length + 1) .val (skipWs s2) =
                    some (v1, s3) :=
                  parseP_mono _ _ _ _ _ _ (by omega) (ih _ _ _ _ hval)
                simp only [hval2]
                split at h
                · next s4 hcom =>
                  have hcom2 := (hcom ▸ skipWs_suffix s3 :
                    (',' :: s4) <:+ s3).length_le
                  simp only [List.length_cons] at hcom2
                  have hsw4 := (skipWs_suffix s4).length_le
                  refine parseP_mono _ _ _ _ _ _ ?_ (ih _ _ _ _ h)
                  omega
                · exact h
                · cases h
            · cases h
        · rw [parseP_members_other fuel acc c cs hc] at h
          cases h
    | elems acc =>
      rw [parseP_elems] at h
      rw [parseP_elems]
      split at h
      · next s2 hcom =>
        have hcom2 := (hcom ▸ skipWs_suffix s :
          (',' :: s2) <:+ s).length_le
        simp only [List.length_cons] at hcom2
        have hsw2 := (skipWs_suffix s2).length_le
        split at h
        · cases h
        · next v1 r1 hval =>
          obtain ⟨hsuf1, hlt1⟩ :=
            parseP_suffix fuel .val (skipWs s2) v1 r1 hval
          have hval2 : parseP (s.length) .val (skipWs s2) = some (v1, r1) :=
            parseP_mono _ _ _ _ _ _ (by omega) (ih _ _ _ _ hval)
          simp only [hval2]
          refine parseP_mono _ _ _ _ _ _ ?_ (ih _ _ _ _ h)
          omega
      · exact h
      · cases h

/-- A suffix relation produces an explicit decomposition. -/
theorem suffix_factor {a r : List Char} (h : r <:+ a) : ∃ z, a = z ++ r := by
  obtain ⟨z, hz⟩ := h
  exact ⟨z, hz.symm⟩

/-- Trimming an untouched suffix: if a parse of `x ++ r` succeeds leaving
`y ++ r`, the same parse of `x` alone succeeds leaving `y` — the parser
never reads past the characters it consumes in a way that changes the
result.  (`r` constrains every intermediate rest to retain `r` as a
suffix, which rules out the parse bleeding into `r`.) -/
theorem parseP_trim : ∀ fuel m x r v y,
    parseP fuel m (x ++ r) = some (v, y ++ r) → parseP fuel m x = some (v, y) := by
  intro fuel
  induction fuel with
  | zero => intro m x r v y h; rw [parseP_zero] at h; cases h
  | succ fuel ih =>
    intro m x r v y h
    cases m with
    | val =>
      cases x with
      | nil =>
        rw [List.nil_append] at h
        obtain ⟨_, hlt⟩ := parseP_suffix _ .val r v (y ++ r) h
        rw [List.length_append] at hlt
        omega
      | cons c cs =>
        rw [List.cons_append] at h
        by_cases hc1 : c = '{'
        · subst hc1
          rw [parseP_val_brace] at h
          rw [parseP_val_brace]
          by_cases hdw : skipWs cs = []
          · rw [skipWs_append_nil hdw] at h
            split at h
            · next r2 heq =>
              injection h with h
              obtain ⟨h1, h2⟩ := Prod.mk.injEq .. ▸ h
              have hle := (heq ▸ skipWs_suffix r : ('}' :: r2) <:+ r).length_le
              have hl2 := congrArg List.length h2
              simp only [List.length_cons] at hle
              rw [List.length_append] at hl2
              omega
            · next hne =>
              obtain ⟨_, hlt⟩ := parseP_suffix _ _ _ _ _ h
              have hle := (skipWs_suffix r).length_le
              rw [List.length_append] at hlt
              omega
          · rw [skipWs_append_pos hdw] at h
            cases hsw : skipWs cs with
            | nil => exact absurd hsw hdw
            | cons w0 ws =>
              rw [hsw, List.cons_append] at h
              split at h
              · next r2 heq =>
                injection heq with ha hb
                subst ha
                injection h with h
                obtain ⟨h1, h2⟩ := Prod.mk.injEq .. ▸ h
                rw [← hb] at h2
                have hy : ws = y := List.append_cancel_right h2
                show some (Json.obj [], ws) = some (v, y)
                rw [h1, hy]
              · next hne =>
                have hw0 : ¬w0 = '}' := fun hh => hne (ws ++ r) (by rw [hh])
                rw [← List.cons_append] at h
                have hx := ih (.members []) (w0 :: ws) r v y h
                split
                · next r2 heq =>
                  injection heq with ha _
                  exact absurd ha hw0
                · exact hx
        · by_cases hc2 : c = '['
          · subst hc2
            rw [parseP_val_brack] at h
            rw [parseP_val_brack]
            by_cases hdw : skipWs cs = []
            · rw [skipWs_append_nil hdw] at h
              split at h
              · next r2 heq =>
                injection h with h
                obtain ⟨h1, h2⟩ := Prod.mk.injEq .. ▸ h
                have hle := (heq ▸ skipWs_suffix r : (']' :: r2) <:+ r).length_le
                have hl2 := congrArg List.length h2
                simp only [List.length_cons] at hle
                rw [List.length_append] at hl2
                omega
              · next hne =>
                split at h
                · cases h
                · next v1 r1 hp =>
                  obtain ⟨hs1, hl1⟩ := parseP_suffix _ .val _ v1 r1 hp
                  obtain ⟨hs2, hl2⟩ := parseP_suffix _ _ _ _ _ h
                  have hle := (skipWs_suffix r).length_le
                  have := hs2.length_le
                  rw [List.length_append] at this
                  omega
            · rw [skipWs_append_pos hdw] at h
              cases hsw : skipWs cs with
              | nil => exact absurd hsw hdw
              | cons w0 ws =>
                rw [hsw, List.cons_append] at h
                split at h
                · next r2 heq =>
                  injection heq with ha hb
                  subst ha
                  injection h with h
                  obtain ⟨h1, h2⟩ := Prod.mk.injEq .. ▸ h
                  rw [← hb] at h2
                  have hy : ws = y := List.append_cancel_right h2
                  show some (Json.arr [], ws) = some (v, y)
                  rw [h1, hy]
                · next hne =>
                  have hw0 : ¬w0 = ']' := fun hh => hne (ws ++ r) (by rw [hh])
                  split at h
                  · cases h
                  · next v1 r1 hp =>
                    obtain ⟨hsfx, _⟩ := parseP_suffix _ _ _ _ _ h
                    have hrr : r <:+ r1 := (List.suffix_append y r).trans hsfx
                    obtain ⟨z, hz⟩ := suffix_factor hrr
                    rw [hz] at hp h
                    rw [← List.cons_append] at hp
                    have hpx := ih .val (w0 :: ws) r v1 z hp
                    have hex := ih (.elems [v1]) z r v y h
                    split
                    · next r2 heq =>
                      injection heq with ha _
                      exact absurd ha hw0
                    · simp only [hpx]
                      exact hex
          · by_cases hc3 : c = '"'
            · subst hc3
              rw [parseP_val_quote] at h
              rw [parseP_val_quote]
              rw [Option.map_eq_some'] at h
              obtain ⟨p, hp, hf⟩ := h
              obtain ⟨p1, p2⟩ := p
              obtain ⟨h1, h2⟩ := Prod.mk.injEq .. ▸ hf
              have h2' : p2 = y ++ r := h2
              have h1' : Json.str (String.mk p1) = v := h1
              rw [h2'] at hp
              have hx := parseStr_trim cs r p1 y hp
              rw [hx]
              show some (Json.str (String.mk p1), y) = some (v, y)
              rw [h1']
            · rw [parseP_val_other fuel c (cs ++ r) hc1 hc2 hc3] at h
              rw [parseP_val_other fuel c cs hc1 hc2 hc3]
              rw [← List.cons_append] at h
              split at h
              · next r2 heq =>
                injection h with h
                obtain ⟨h1, h2⟩ := Prod.mk.injEq .. ▸ h
                rw [h2] at heq
                have hcx : c :: cs = ['t', 'r', 'u', 'e'] ++ y := by
                  have := stripLit_eq _ _ _ heq
                  rw [← List.append_assoc] at this
                  exact List.append_cancel_right this
                rw [hcx, stripLit_self]
                show some (Json.bool true, y) = some (v, y)
                rw [h1]
              · next hn1 =>
                have hg1 := stripLit_none_trim _ (c :: cs) r hn1
                split at h
                · next r2 heq =>
                  injection h with h
                  obtain ⟨h1, h2⟩ := Prod.mk.injEq .. ▸ h
                  rw [h2] at heq
                  have hcx : c :: cs = ['f', 'a', 'l', 's', 'e'] ++ y := by
                    have := stripLit_eq _ _ _ heq
                    rw [← List.append_assoc] at this
                    exact List.append_cancel_right this
                  simp only [hg1, hcx, stripLit_self]
                  show some (Json.bool false, y) = some (v, y)
                  rw [h1]
                · next hn2 =>
                  have hg2 := stripLit_none_trim _ (c :: cs) r hn2
                  split at h
                  · next r2 heq =>
                    injection h with h
                    obtain ⟨h1, h2⟩ := Prod.mk.injEq .. ▸ h
                    rw [h2] at heq
                    have hcx : c :: cs = ['n', 'u', 'l', 'l'] ++ y := by
                      have := stripLit_eq _ _ _ heq
                      rw [← List.append_assoc] at this
                      exact List.append_cancel_right this
                    simp only [hg1, hg2, hcx, stripLit_self]
                    show some (Json.null, y) = some (v, y)
                    rw [h1]
                  · next hn3 =>
                    have hg3 := stripLit_none_trim _ (c :: cs) r hn3
                    split at h
                    · next r2 heq =>
                      injection h with h
                      obtain ⟨h1, h2⟩ := Prod.mk.injEq .. ▸ h
                      rw [h2] at heq
                      have hcx : c :: cs = ['N', 'a', 'N'] ++ y := by
                        have := stripLit_eq _ _ _ heq
                        rw [← List.append_assoc] at this
                        exact List.append_cancel_right this
                      simp only [hg1, hg2, hg3, hcx, stripLit_self]
                      show some (Json.num "NaN", y) = some (v, y)
                      rw [h1]
                    · next hn4 =>
                      have hg4 := stripLit_none_trim _ (c :: cs) r hn4
                      split at h
                      · next r2 heq =>
                        injection h with h
                        obtain ⟨h1, h2⟩ := Prod.mk.injEq .. ▸ h
                        rw [h2] at heq
                        have hcx : c :: cs =
                            ['I', 'n', 'f', 'i', 'n', 'i', 't', 'y'] ++ y := by
                          have := stripLit_eq _ _ _ heq
                          rw [← List.append_assoc] at this
                          exact List.append_cancel_right this
                        simp only [hg1, hg2, hg3, hg4, hcx, stripLit_self]
                        show some (Json.num "Infinity", y) = some (v, y)
                        rw [h1]
                      · next hn5 =>
                        have hg5 := stripLit_none_trim _ (c :: cs) r hn5
                        split at h
                        · next r2 heq =>
                          injection h with h
                          obtain ⟨h1, h2⟩ := Prod.mk.injEq .. ▸ h
                          rw [h2] at heq
                          have hcx : c :: cs =
                              ['-', 'I', 'n', 'f', 'i', 'n', 'i', 't', 'y'] ++ y := by
                            have := stripLit_eq _ _ _ heq
                            rw [← List.append_assoc] at this
                            exact List.append_cancel_right this
                          simp only [hg1, hg2, hg3, hg4, hg5, hcx, stripLit_self]
                          show some (Json.num "-Infinity", y) = some (v, y)
                          rw [h1]
                        · next hn6 =>
                          have hg6 := stripLit_none_trim _ (c :: cs) r hn6
                          simp only [hg1, hg2, hg3, hg4, hg5, hg6]
                          exact parseNum_trim (c :: cs) r v y h
    | members acc =>
      cases x with
      | nil =>
        rw [List.nil_append] at h
        obtain ⟨_, hlt⟩ := parseP_suffix _ _ r v (y ++ r) h
        rw [List.length_append] at hlt
        omega
      | cons c cs =>
        rw [List.cons_append] at h
        by_cases hc : c = '"'
        · subst hc
          rw [parseP_members_quote] at h
          rw [parseP_members_quote]
          split at h
          · cases h
          · next key s1 hkey =>
            split at h
            · next s2 hcol =>
              split at h
              · cases h
              · next v1 s3 hval =>
                obtain ⟨hsfv, hlfv⟩ := parseP_suffix _ .val _ v1 s3 hval
                split at h
                · next s4 hcom =>
                  obtain ⟨hsfm, hlfm⟩ := parseP_suffix _ _ _ _ _ h
                  -- suffix chain down to r
                  have hyr : r <:+ skipWs s4 :=
                    (List.suffix_append y r).trans hsfm
                  have hr4 : r <:+ s4 := hyr.trans (skipWs_suffix s4)
                  have hr3 : r <:+ s3 :=
                    (hr4.trans (List.suffix_cons ',' s4)).trans
                      (hcom ▸ skipWs_suffix s3)
                  have hrv : r <:+ skipWs s2 := hr3.trans hsfv
                  have hr2 : r <:+ s2 := hrv.trans (skipWs_suffix s2)
                  have hr1 : r <:+ s1 :=
                    (hr2.trans (List.suffix_cons ':' s2)).trans
                      (hcol ▸ skipWs_suffix s1)
                  obtain ⟨z1, hz1⟩ := suffix_factor hr1
                  rw [hz1] at hkey hcol
                  have hkx := parseStr_trim cs r key z1 hkey
                  -- analyze skipWs z1
                  by_cases hbz1 : skipWs z1 = []
                  · rw [skipWs_append_nil hbz1] at hcol
                    -- skipWs r = ':' :: s2 so s2 is shorter than r
                    have hle := (hcol ▸ skipWs_suffix r :
                      (':' :: s2) <:+ r).length_le
                    simp only [List.length_cons] at hle
                    have e1 := hr2.length_le
                    have e2 := List.length_append y r
                    have e3 := hrv.length_le
                    have e4 := (skipWs_suffix s2).length_le
                    have e5 := hsfv.length_le
                    have e6 := hr3.length_le
                    have e7 := hsfm.length_le
                    have e8 := (skipWs_suffix s4).length_le
                    have e9 := (hcom ▸ skipWs_suffix s3 :
                      (',' :: s4) <:+ s3).length_le
                    simp only [List.length_cons] at e9
                    have e11 : (y ++ r).length ≤ (skipWs s4).length :=
                      hsfm.length_le
                    rw [List.length_append] at e11
                    omega
                  · rw [skipWs_append_pos hbz1] at hcol
                    cases hsw1 : skipWs z1 with
                    | nil => exact absurd hsw1 hbz1
                    | cons a1 b1 =>
                      rw [hsw1, List.cons_append] at hcol
                      injection hcol with ha1 hb1
                      subst ha1
                      -- s2 = b1 ++ r
                      rw [← hb1] at hval hrv
                      -- analyze skipWs b1
                      by_cases hbb1 : skipWs b1 = []
                      · rw [skipWs_append_nil hbb1] at hval
                        obtain ⟨_, hlv2⟩ := parseP_suffix _ .val _ v1 s3 hval
                        have e1 := (skipWs_suffix r).length_le
                        have e2 := hr3.length_le
                        have e3 := (hcom ▸ skipWs_suffix s3 :
                          (',' :: s4) <:+ s3).length_le
                        simp only [List.length_cons] at e3
                        have e4 := hr4.length_le
                        have e5 : (y ++ r).length ≤ (skipWs s4).length :=
                          hsfm.length_le
                        rw [List.length_append] at e5
                        have e6 := (skipWs_suffix s4).length_le
                        omega
                      · rw [skipWs_append_pos hbb1] at hval
                        obtain ⟨z3, hz3⟩ := suffix_factor hr3
                        rw [hz3] at hval hcom
                        have hvx := ih .val (skipWs b1) r v1 z3 hval
                        -- analyze skipWs z3
                        by_cases hbz3 : skipWs z3 = []
                        · rw [skipWs_append_nil hbz3] at hcom
                          have hle := (hcom ▸ skipWs_suffix r :
                            (',' :: s4) <:+ r).length_le
                          simp only [List.length_cons] at hle
                          have e4 := hr4.length_le
                          have e5 : (y ++ r).length ≤ (skipWs s4).length :=
                            hsfm.length_le
                          rw [List.length_append] at e5
                          have e6 := (skipWs_suffix s4).length_le
                          omega
                        · rw [skipWs_append_pos hbz3] at hcom
                          cases hsw3 : skipWs z3 with
                          | nil => exact absurd hsw3 hbz3
                          | cons a3 b3 =>
                            rw [hsw3, List.cons_append] at hcom
                            injection hcom with ha3 hb3
                            subst ha3
                            -- s4 = b3 ++ r
                            rw [← hb3] at h
                            by_cases hbb3 : skipWs b3 = []
                            · rw [skipWs_append_nil hbb3] at h
                              obtain ⟨_, hlm2⟩ := parseP_suffix _ _ _ _ _ h
                              have e1 := (skipWs_suffix r).length_le
                              rw [List.length_append] at hlm2
                              omega
                            · rw [skipWs_append_pos hbb3] at h
                              have hmx := ih _ (skipWs b3) r v y h
                              simp only [hkx, hsw1, hvx, hsw3]
                              exact hmx
                · next s4 hbrc =>
                  injection h with h
                  obtain ⟨h1, h2⟩ := Prod.mk.injEq .. ▸ h
                  -- s4 = y ++ r
                  rw [h2] at hbrc
                  have hr3 : r <:+ s3 :=
                    ((List.suffix_append y r).trans
                      (List.suffix_cons '}' (y ++ r))).trans
                      (hbrc ▸ skipWs_suffix s3)
                  have hrv : r <:+ skipWs s2 := hr3.trans hsfv
                  have hr2 : r <:+ s2 := hrv.trans (skipWs_suffix s2)
                  have hr1 : r <:+ s1 :=
                    (hr2.trans (List.suffix_cons ':' s2)).trans
                      (hcol ▸ skipWs_suffix s1)
                  obtain ⟨z1, hz1⟩ := suffix_factor hr1
                  rw [hz1] at hkey hcol
                  have hkx := parseStr_trim cs r key z1 hkey
                  by_cases hbz1 : skipWs z1 = []
                  · rw [skipWs_append_nil hbz1] at hcol
                    have hle := (hcol ▸ skipWs_suffix r :
                      (':' :: s2) <:+ r).length_le
                    simp only [List.length_cons] at hle
                    have e1 := hr2.length_le
                    have e3 := hrv.length_le
                    have e4 := (skipWs_suffix s2).length_le
                    have e5 := hsfv.length_le
                    have e6 := hr3.length_le
                    have e7 := (hbrc ▸ skipWs_suffix s3 :
                      ('}' :: (y ++ r)) <:+ s3).length_le
                    simp only [List.length_cons] at e7
                    rw [List.length_append] at e7
                    omega
                  · rw [skipWs_append_pos hbz1] at hcol
                    cases hsw1 : skipWs z1 with
                    | nil => exact absurd hsw1 hbz1
                    | cons a1 b1 =>
                      rw [hsw1, List.cons_append] at hcol
                      injection hcol with ha1 hb1
                      subst ha1
                      rw [← hb1] at hval
                      by_cases hbb1 : skipWs b1 = []
                      · rw [skipWs_append_nil hbb1] at hval
                        obtain ⟨_, hlv2⟩ := parseP_suffix _ .val _ v1 s3 hval
                        have e1 := (skipWs_suffix r).length_le
                        have e6 := hr3.length_le
                        have e7 := (hbrc ▸ skipWs_suffix s3 :
                          ('}' :: (y ++ r)) <:+ s3).length_le
                        simp only [List.length_cons] at e7
                        rw [List.length_append] at e7
                        omega
                      · rw [skipWs_append_pos hbb1] at hval
                        obtain ⟨z3, hz3⟩ := suffix_factor hr3
                        rw [hz3] at hval hbrc
                        have hvx := ih .val (skipWs b1) r v1 z3 hval
                        by_cases hbz3 : skipWs z3 = []
                        · rw [skipWs_append_nil hbz3] at hbrc
                          have hle := (hbrc ▸ skipWs_suffix r :
                            ('}' :: (y ++ r)) <:+ r).length_le
                          simp only [List.length_cons] at hle
                          rw [List.length_append] at hle
                          omega
                        · rw [skipWs_append_pos hbz3] at hbrc
                          cases hsw3 : skipWs z3 with
                          | nil => exact absurd hsw3 hbz3
                          | cons a3 b3 =>
                            rw [hsw3, List.cons_append] at hbrc
                            injection hbrc with ha3 hb3
                            subst ha3
                            have hy : b3 = y := List.append_cancel_right hb3
                            simp only [hkx, hsw1, hvx, hsw3]
                            show some (Json.obj
                              (insertKey acc (String.mk key) v1), b3) = some (v, y)
                            rw [h1, hy]
                · cases h
            · cases h
        · rw [parseP_members_other fuel acc c (cs ++ r) hc] at h
          cases h
    | elems acc =>
      by_cases hdw : skipWs x = []
      · rw [parseP_elems] at h
        rw [skipWs_append_nil hdw] at h
        split at h
        · next s2 hcom =>
          split at h
          · cases h
          · next v1 r1 hval =>
            obtain ⟨hsv, hlv⟩ := parseP_suffix _ .val _ v1 r1 hval
            obtain ⟨hse, hle⟩ := parseP_suffix _ _ _ _ _ h
            have e1 := (skipWs_suffix r).length_le
            have e2 := (hcom ▸ skipWs_suffix r : (',' :: s2) <:+ r).length_le
            simp only [List.length_cons] at e2
            have e3 := (skipWs_suffix s2).length_le
            have e4 := hse.length_le
            rw [List.length_append] at e4
            omega
        · next s2 hbrk =>
          injection h with h
          obtain ⟨h1, h2⟩ := Prod.mk.injEq .. ▸ h
          have hle := (hbrk ▸ skipWs_suffix r : (']' :: s2) <:+ r).length_le
          simp only [List.length_cons] at hle
          have hl2 := congrArg List.length h2
          rw [List.length_append] at hl2
          omega
        · cases h
      · rw [parseP_elems] at h
        rw [parseP_elems]
        rw [skipWs_append_pos hdw] at h
        cases hsw : skipWs x with
        | nil => exact absurd hsw hdw
        | cons w0 ws =>
          rw [hsw, List.cons_append] at h
          split at h
          · next s2 heq =>
            injection heq with ha hb
            subst ha
            rw [← hb] at h
            split at h
            · cases h
            · next v1 r1 hval =>
              obtain ⟨hse, _⟩ := parseP_suffix _ _ _ _ _ h
              have hrr : r <:+ r1 := (List.suffix_append y r).trans hse
              obtain ⟨z, hz⟩ := suffix_factor hrr
              rw [hz] at hval h
              have hex := ih (.elems (acc ++ [v1])) z r v y h
              by_cases hbw : skipWs ws = []
              · rw [skipWs_append_nil hbw] at hval
                obtain ⟨_, hlv⟩ := parseP_suffix _ .val _ v1 (z ++ r) hval
                have e1 := (skipWs_suffix r).length_le
                rw [List.length_append] at hlv
                omega
              · rw [skipWs_append_pos hbw] at hval
                have hvx := ih .val (skipWs ws) r v1 z hval
                split
                · next s2' heq' =>
                  injection heq' with _ hb'
                  subst hb'
                  simp only [hvx]
                  exact hex
                · next s2' heq' => cases heq'
                · next hne1 hne2 => exact (hne1 ws rfl).elim
          · next s2 heq =>
            injection heq with ha hb
            subst ha
            injection h with h
            obtain ⟨h1, h2⟩ := Prod.mk.injEq .. ▸ h
            rw [← hb] at h2
            have hy : ws = y := List.append_cancel_right h2
            split
            · next s2' heq' => cases heq'
            · next s2' heq' =>
              injection heq' with _ hb'
              subst hb'
              show some (Json.arr acc, ws) = some (v, y)
              rw [h1, hy]
            · next hne1 hne2 => exact (hne2 ws rfl).elim
          · cases h

/-- Any successful number scan yields a `Json.num` value. -/
theorem parseNum_shape (s : List Char) (v : Json) (r : List Char)
    (h : parseNum s = some (v, r)) : ∃ t, v = Json.num t := by
  unfold parseNum at h
  split at h
  · rw [Option.map_eq_some'] at h
    obtain ⟨p, _, hf⟩ := h
    obtain ⟨h1, _⟩ := Prod.mk.injEq .. ▸ hf
    exact ⟨_, h1.symm⟩
  · rw [Option.map_eq_some'] at h
    obtain ⟨p, _, hf⟩ := h
    obtain ⟨h1, _⟩ := Prod.mk.injEq .. ▸ hf
    exact ⟨_, h1.symm⟩

/-- Array-continuation parses always produce an array value. -/
theorem parseP_elems_shape : ∀ fuel acc s v r,
    parseP fuel (.elems acc) s = some (v, r) → ∃ l, v = Json.arr l := by
  intro fuel
  induction fuel with
  | zero => intro acc s v r h; rw [parseP_zero] at h; cases h
  | succ fuel ih =>
    intro acc s v r h
    rw [parseP_elems] at h
    split at h
    · split at h
      · cases h
      · exact ih _ _ _ _ h
    · injection h with h
      obtain ⟨h1, _⟩ := Prod.mk.injEq .. ▸ h
      exact ⟨_, h1.symm⟩
    · cases h

/-- A successful object-members parse consumes through a closing brace:
the character immediately before the returned rest is `}`. -/
theorem parseP_members_end : ∀ fuel acc s v r,
    parseP fuel (.members acc) s = some (v, r) → ('}' :: r) <:+ s := by
  intro fuel
  induction fuel with
  | zero => intro acc s v r h; rw [parseP_zero] at h; cases h
  | succ fuel ih =>
    intro acc s v r h
    cases s with
    | nil => rw [parseP_members_nil] at h; cases h
    | cons c cs =>
      by_cases hc : c = '"'
      · subst hc
        rw [parseP_members_quote] at h
        split at h
        · cases h
        · next key s1 hkey =>
          split at h
          · next s2 hcol =>
            split at h
            · cases h
            · next v1 s3 hval =>
              obtain ⟨hs1, _⟩ := parseStr_suffix cs key s1 hkey
              obtain ⟨hsv, _⟩ := parseP_suffix _ .val _ v1 s3 hval
              have hchain : ∀ a : List Char, a <:+ s3 → a <:+ '"' :: cs :=
                fun a ha =>
                  ((((((ha.trans hsv).trans (skipWs_suffix s2)).trans
                    (List.suffix_cons ':' s2)).trans
                    (hcol ▸ skipWs_suffix s1 : (':' :: s2) <:+ s1)).trans
                    hs1).trans (List.suffix_cons '"' cs))
              split at h
              · next s4 hcom =>
                have hm := ih _ _ _ _ h
                exact hchain _ (((hm.trans (skipWs_suffix s4)).trans
                  (List.suffix_cons ',' s4)).trans
                  (hcom ▸ skipWs_suffix s3 : (',' :: s4) <:+ s3))
              · next s4 hbrc =>
                injection h with h
                obtain ⟨_, h2⟩ := Prod.mk.injEq .. ▸ h
                have hb2 : ('}' :: s4) <:+ s3 :=
                  hbrc ▸ skipWs_suffix s3
                rw [h2] at hb2
                exact hchain _ hb2
              · cases h
          · cases h
      · rw [parseP_members_other fuel acc c cs hc] at h
        cases h

/-- A value parse that returns an object starts at a `{` and the
character immediately before the returned rest is `}`. -/
theorem parseP_val_obj : ∀ fuel s f r,
    parseP fuel .val s = some (Json.obj f, r) →
    (∃ t, s = '{' :: t) ∧ ('}' :: r) <:+ s := by
  intro fuel s f r h
  cases fuel with
  | zero => rw [parseP_zero] at h; cases h
  | succ fuel =>
    cases s with
    | nil => rw [parseP_val_nil] at h; cases h
    | cons c cs =>
      by_cases hc1 : c = '{'
      · subst hc1
        refine ⟨⟨cs, rfl⟩, ?_⟩
        rw [parseP_val_brace] at h
        split at h
        · next r2 heq =>
          injection h with h
          obtain ⟨_, h2⟩ := Prod.mk.injEq .. ▸ h
          have hb2 : ('}' :: r2) <:+ cs := heq ▸ skipWs_suffix cs
          rw [h2] at hb2
          exact hb2.trans (List.suffix_cons '{' cs)
        · next hne =>
          exact ((parseP_members_end fuel [] _ _ _ h).trans
            (skipWs_suffix cs)).trans (List.suffix_cons '{' cs)
      · exfalso
        by_cases hc2 : c = '['
        · subst hc2
          rw [parseP_val_brack] at h
          split at h
          · injection h with h
            obtain ⟨h1, _⟩ := Prod.mk.injEq .. ▸ h
            exact Json.noConfusion h1
          · split at h
            · cases h
            · obtain ⟨l, hl⟩ := parseP_elems_shape fuel _ _ _ _ h
              exact Json.noConfusion hl
        · by_cases hc3 : c = '"'
          · subst hc3
            rw [parseP_val_quote] at h
            rw [Option.map_eq_some'] at h
            obtain ⟨p, _, hf⟩ := h
            obtain ⟨h1, _⟩ := Prod.mk.injEq .. ▸ hf
            exact Json.noConfusion h1
          · rw [parseP_val_other fuel c cs hc1 hc2 hc3] at h
            split at h
            · injection h with h
              obtain ⟨h1, _⟩ := Prod.mk.injEq .. ▸ h
              exact Json.noConfusion h1
            · split at h
              · injection h with h
                obtain ⟨h1, _⟩ := Prod.mk.injEq .. ▸ h
                exact Json.noConfusion h1
              · split at h
                · injection h with h
                  obtain ⟨h1, _⟩ := Prod.mk.injEq .. ▸ h
                  exact Json.noConfusion h1
                · split at h
                  · injection h with h
                    obtain ⟨h1, _⟩ := Prod.mk.injEq .. ▸ h
                    exact Json.noConfusion h1
                  · split at h
                    · injection h with h
                      obtain ⟨h1, _⟩ := Prod.mk.injEq .. ▸ h
                      exact Json.noConfusion h1
                    · split at h
                      · injection h with h
                        obtain ⟨h1, _⟩ := Prod.mk.injEq .. ▸ h
                        exact Json.noConfusion h1
                      · obtain ⟨t, ht⟩ := parseNum_shape _ _ _ h
                        exact Json.noConfusion ht

/-- Whitespace skipping does not move past a `{`. -/
theorem skipWs_brace (t : List Char) : skipWs ('{' :: t) = '{' :: t := by
  unfold skipWs
  rw [List.dropWhile_cons, if_neg (by decide)]

/-- `content.find` on prose containing no `{` followed by a `{`-headed
tail locates the `{` exactly at the prose boundary. -/
theorem pyFind_boundary (A t : List Char)
    (hA : ∀ c ∈ A, (c == '{') = false) :
    pyFind (A ++ '{' :: t) '{' = some A.length := by
  unfold pyFind
  rw [List.findIdx?_append, List.findIdx?_eq_none_iff.mpr hA, Option.none_or,
    List.findIdx?_cons]
  simp

/-- `content.rfind` on a body ending in a `}` followed only by characters
that are not `}` locates that last closing brace. -/
theorem pyRFind_boundary (B rest : List Char)
    (hr : ∀ c ∈ rest, (c == '}') = false) :
    pyRFind (B ++ '}' :: rest) '}' =
      some ((B ++ '}' :: rest).length - 1 - rest.length) := by
  unfold pyRFind
  rw [List.reverse_append, List.reverse_cons, List.append_assoc,
    List.singleton_append, List.findIdx?_append,
    List.findIdx?_eq_none_iff.mpr (fun c hcm => hr c (List.mem_reverse.mp hcm)),
    Option.none_or, List.findIdx?_cons]
  simp

/-- C4 counterexample: the claim says every body of leading prose followed
by a single well-formed JSON object is recovered by the first-`{` /
last-`}` fallback of `llm_propose_patches`.  When the prose itself
contains a `{` — here the body `x{y {"a":1}` — `content.find` locates the
`{` inside the prose, the sliced substring `{y {"a":1}` is not valid
JSON, and the decode step yields nothing, even though the body ends in a
well-formed object that decodes on its own. -/
theorem fallback_brace_prose_cex :
    jsonDecode ['{', '"', 'a', '"', ':', '1', '}']
        = some (Json.obj [("a", Json.num "1")]) ∧
    tryDecode ['x', '{', 'y', ' ', '{', '"', 'a', '"', ':', '1', '}'] = none :=
  ⟨rfl, rfl⟩

/-- C4 (amended): the fallback substring decode of `llm_propose_patches`
succeeds whenever the leading prose contains no `{`: for a body
`prose ++ objC` where `objC` strictly decodes to a JSON object and the
whole body does not strictly decode, slicing from the first `{` to the
last `}` and re-decoding recovers exactly that object. -/
theorem fallback_recovers_object (prose objC : List Char)
    (f : List (String × Json))
    (hpro : '{' ∉ prose)
    (hobj : jsonDecode objC = some (Json.obj f))
    (hfail : jsonDecode (prose ++ objC) = none) :
    tryDecode (prose ++ objC) = some (Json.obj f) := by
  unfold jsonDecode at hobj
  split at hobj
  · next v rest hp =>
    split at hobj
    · next hw =>
      injection hobj with hobj
      subst hobj
      obtain ⟨⟨t, ht⟩, hsuf⟩ := parseP_val_obj _ _ _ _ hp
      obtain ⟨u, hu⟩ := hsuf
      have hsplit : objC.takeWhile isJsonWs ++ skipWs objC = objC :=
        List.takeWhile_append_dropWhile isJsonWs objC
      cases u with
      | nil =>
        rw [List.nil_append, ht] at hu
        injection hu with hx _
        exact absurd hx (by decide)
      | cons u0 u' =>
        have hu' := hu
        rw [ht, List.cons_append] at hu'
        injection hu' with hx _
        subst hx
        -- the consumed object segment
        have hpc : parseP (objC.length + 1) .val
            (('{' :: (u' ++ ['}'])) ++ rest) = some (Json.obj f, [] ++ rest) := by
          rw [List.nil_append]
          rw [show ('{' :: (u' ++ ['}'])) ++ rest = skipWs objC from by
            rw [← hu]
            simp only [List.cons_append, List.append_assoc,
              List.singleton_append, List.nil_append]]
          exact hp
        have htr := parseP_trim (objC.length + 1) .val ('{' :: (u' ++ ['}']))
          rest (Json.obj f) [] hpc
        have hnd := parseP_need (objC.length + 1) .val ('{' :: (u' ++ ['}']))
          (Json.obj f) [] htr
        have hslice : jsonDecode ('{' :: (u' ++ ['}'])) = some (Json.obj f) := by
          unfold jsonDecode
          rw [skipWs_brace, hnd]
          rfl
        -- locating the first `{` and the last `}`
        have hAfind : ∀ c ∈ prose ++ objC.takeWhile isJsonWs,
            (c == '{') = false := by
          intro c hcm
          rcases List.mem_append.mp hcm with hcl | hcr
          · cases hbe : c == '{' with
            | false => rfl
            | true => exact absurd (eq_of_beq hbe ▸ hcl) hpro
          · have hws := List.mem_takeWhile_imp hcr
            cases hbe : c == '{' with
            | false => rfl
            | true =>
              rw [eq_of_beq hbe] at hws
              exact absurd hws (by decide)
        have hrestf : ∀ c ∈ rest, (c == '}') = false := by
          intro c hcm
          have hcw := List.dropWhile_eq_nil_iff.mp hw c hcm
          cases hbe : c == '}' with
          | false => rfl
          | true =>
            rw [eq_of_beq hbe] at hcw
            exact absurd hcw (by decide)
        have hbody : prose ++ objC =
            (prose ++ objC.takeWhile isJsonWs) ++ '{' :: (u' ++ '}' :: rest) := by
          rw [List.append_assoc]
          congr 1
          conv_lhs => rw [← hsplit]
          congr 1
          rw [← hu, List.cons_append]
        have hbody2 : prose ++ objC =
            ((prose ++ objC.takeWhile isJsonWs) ++ '{' :: u') ++ '}' :: rest := by
          simpa only [List.append_assoc, List.cons_append,
            List.singleton_append] using hbody
        have hfind : pyFind (prose ++ objC) '{' =
            some (prose ++ objC.takeWhile isJsonWs).length := by
          rw [hbody]
          exact pyFind_boundary _ _ hAfind
        have hrfind : pyRFind (prose ++ objC) '}' =
            some ((prose ++ objC).length - 1 - rest.length) := by
          conv_lhs => rw [hbody2]
          rw [pyRFind_boundary _ _ hrestf]
          rw [← hbody2]
        have hlenA : (prose ++ objC).length =
            (prose ++ objC.takeWhile isJsonWs).length + (u'.length + 2) +
              rest.length := by
          rw [hbody2]
          simp only [List.length_append, List.length_cons]
          omega
        have hdrop : (prose ++ objC).drop
            (prose ++ objC.takeWhile isJsonWs).length
              = ('{' :: (u' ++ ['}'])) ++ rest := by
          conv_lhs => rw [hbody]
          rw [List.drop_left]
          simp only [List.cons_append, List.append_assoc,
            List.singleton_append, List.nil_append]
        have harith : (prose ++ objC).length - 1 - rest.length + 1 -
            (prose ++ objC.takeWhile isJsonWs).length = u'.length + 2 := by
          omega
        have hlc : ('{' :: (u' ++ ['}'])).length = u'.length + 2 := by
          simp only [List.length_cons, List.length_append, List.length_nil]
        have htk : (('{' :: (u' ++ ['}'])) ++ rest).take (u'.length + 2)
            = '{' :: (u' ++ ['}']) := by
          rw [← hlc, List.take_left]
        simp only [tryDecode, hfail, hfind, hrfind]
        rw [if_pos (by omega : (prose ++ objC.takeWhile isJsonWs).length <
          (prose ++ objC).length - 1 - rest.length)]
        rw [hdrop, harith, htk]
        exact hslice
    · cases hobj
  · cases hobj

/-- The amended C4 fallback theorem applied at the concrete body
`r: {"a":1}`: prose without a `{` followed by a JSON object. -/
theorem fallback_recovers_object_witness :
    tryDecode (['r', ':', ' '] ++ ['{', '"', 'a', '"', ':', '1', '}'])
        = some (Json.obj [("a", Json.num "1")]) :=
  fallback_recovers_object ['r', ':', ' '] ['{', '"', 'a', '"', ':', '1', '}']
    [("a", Json.num "1")] (by decide) (by rfl) (by rfl)

example : jsonDecode ['{', '}'] = some (Json.obj []) := by rfl

example : jsonDecode ['[', '1', ',', ' ', 't', 'r', 'u', 'e', ']'] =
    some (Json.arr [Json.num "1", Json.bool true]) := by rfl

example : jsonDecode ['{', '"', 'a', '"', ':', ' ', '1', '}'] =
    some (Json.obj [("a", Json.num "1")]) := by rfl

example : jsonDecode ['x', '{', '}'] = none := by rfl

example : tryDecode ['x', ' ', '{', '"', 'a', '"', ':', '1', '}'] =
    some (Json.obj [("a", Json.num "1")]) := by rfl

example : tryDecode ['x', '{', 'y', ' ', '{', '"', 'a', '"', ':', '1', '}'] =
    none := by rfl

example : planSteps (Json.obj []) = .ok () := by rfl

example : planSteps (Json.arr []) =
    .error "AttributeError: no attribute get" := by rfl

example : planSteps (Json.obj [("notes", Json.num "7")]) =
    .error "TypeError: object is not subscriptable" := by rfl

example : planSteps (Json.obj [("notes", Json.num "0")]) = .ok () := by rfl

example : planSteps (Json.obj [("notes", Json.bool true)]) =
    .error "TypeError: object is not subscriptable" := by rfl

example : planSteps (Json.obj [("notes", Json.str "done")]) = .ok () := by rfl

example : planSteps (Json.obj [("patches", Json.num "5")]) =
    .error "TypeError: object is not iterable" := by rfl

example : planSteps (Json.obj [("patches", Json.arr [Json.num "1"])]) =
    .error "AttributeError: object has no attribute get" := by rfl

example : planSteps (Json.obj [("patches", Json.str "oops")]) =
    .error "AttributeError: object has no attribute get" := by rfl

example : planSteps (Json.obj [("patches",
    Json.arr [Json.obj [("path", Json.str "a.py"),
      ("content", Json.null)]])]) =
    .error "TypeError: write_text argument must be str" := by rfl

example : planSteps (Json.obj [("patches",
    Json.arr [Json.obj [("path", Json.num "3")]])]) =
    .error "TypeError: unsupported operand type for /" := by rfl

example : planSteps (Json.obj [("patches",
    Json.arr [Json.obj [("path", Json.null), ("content", Json.null)]])]) =
    .ok () := by rfl

example : planSteps (Json.obj [("patches",
    Json.arr [Json.obj [("path", Json.str "a.py"),
      ("content", Json.str "x")]])]) = .ok () := by rfl

end Agent
